import Mathlib

/-!
Verification development for the GCLI graph command-line engine
(`apls/graph_cli.py`).  The Python source is shallowly embedded: every
handler of the `GraphCLI` class becomes an executable Lean function over an
explicit `Store` state, Python dictionaries become association lists with
unique keys, Python sets become duplicate-free lists, and Python exceptions
(`ValueError`, `IndexError`, `KeyError`) escaping a command become
`Except.error` values paired with the store as it stands at the raise point.
-/

namespace GCLI

/-- Python exceptions that can escape the engine. -/
inductive PyErr
  | valueError
  | indexError
  | keyError
  deriving DecidableEq, Repr

/-! ### Python `int()` parsing and decimal printing -/

def isDig (c : Char) : Bool := '0' ≤ c && c ≤ '9'

def digitVal (c : Char) : Nat := c.toNat - '0'.toNat

def dChar (d : Nat) : Char := Char.ofNat (48 + d)

/-- Digits of `int()` after the first one: a digit, or a single underscore
followed by a digit (Python 3 allows `1_000`). -/
def pyDigitsAux : Nat → List Char → Option Nat
  | acc, [] => some acc
  | acc, c :: cs =>
    if isDig c then pyDigitsAux (acc * 10 + digitVal c) cs
    else if c = '_' then
      match cs with
      | c2 :: cs2 => if isDig c2 then pyDigitsAux (acc * 10 + digitVal c2) cs2 else none
      | [] => none
    else none

def pyDigits : List Char → Option Nat
  | [] => none
  | c :: cs => if isDig c then pyDigitsAux (digitVal c) cs else none

def isPyWs (c : Char) : Bool := c = ' ' || c = '\t' || c = '\n' || c = '\r'

def trimChars (l : List Char) : List Char :=
  ((l.dropWhile isPyWs).reverse.dropWhile isPyWs).reverse

def pyIntChars : List Char → Option Int
  | [] => none
  | c :: cs =>
    if c = '+' then (pyDigits cs).map Int.ofNat
    else if c = '-' then (pyDigits cs).map (fun n => -(n : Int))
    else (pyDigits (c :: cs)).map Int.ofNat

/-- Python `int(s)`: strips surrounding whitespace, then an optional sign and
a digit string. `none` models a raised `ValueError`. -/
def pyInt (s : String) : Option Int := pyIntChars (trimChars s.toList)

/-- Python `str.isdigit()` for the ASCII tokens the CLI handles. -/
def pyIsDigit (s : String) : Bool := !s.toList.isEmpty && s.toList.all isDig

/-- Decimal digits of a natural number, least significant first
(structural fuel recursion so that the kernel can evaluate it; `m` itself is
always enough fuel). -/
def natDigitsAux : Nat → Nat → List Char
  | _, 0 => []
  | 0, _ + 1 => []
  | fuel + 1, m + 1 => dChar ((m + 1) % 10) :: natDigitsAux fuel ((m + 1) / 10)

def natToRevDigits (n : Nat) : List Char := natDigitsAux n n

theorem natDigitsAux_fuel (m : Nat) : ∀ f1 f2 : Nat, m ≤ f1 → m ≤ f2 →
    natDigitsAux f1 m = natDigitsAux f2 m := by
  induction m using Nat.strong_induction_on with
  | _ m ih =>
    intro f1 f2 h1 h2
    match m, f1, f2, h1, h2 with
    | 0, f1, f2, _, _ => cases f1 <;> cases f2 <;> rfl
    | k + 1, g1 + 1, g2 + 1, h1, h2 =>
      show dChar _ :: natDigitsAux g1 ((k + 1) / 10) =
        dChar _ :: natDigitsAux g2 ((k + 1) / 10)
      have hk : (k + 1) / 10 ≤ k :=
        Nat.lt_succ_iff.mp (Nat.div_lt_self (Nat.succ_pos k) (by norm_num))
      rw [ih ((k + 1) / 10) (Nat.lt_succ_of_le hk) g1 g2 (le_trans hk (Nat.lt_succ_iff.mp h1))
        (le_trans hk (Nat.lt_succ_iff.mp h2))]

theorem natToRevDigits_zero : natToRevDigits 0 = [] := rfl

theorem natToRevDigits_succ (m : Nat) :
    natToRevDigits (m + 1) = dChar ((m + 1) % 10) :: natToRevDigits ((m + 1) / 10) := by
  show natDigitsAux (m + 1) (m + 1) = _
  have hk : (m + 1) / 10 ≤ m :=
    Nat.lt_succ_iff.mp (Nat.div_lt_self (Nat.succ_pos m) (by norm_num))
  show dChar _ :: natDigitsAux m ((m + 1) / 10) = _
  rw [natDigitsAux_fuel ((m + 1) / 10) m ((m + 1) / 10) hk (le_refl _)]
  rfl

def natToChars (n : Nat) : List Char :=
  if n = 0 then ['0'] else (natToRevDigits n).reverse

/-- Python `str(i)` for an integer. -/
def intToStr (i : Int) : String :=
  if i < 0 then String.mk ('-' :: natToChars i.natAbs) else String.mk (natToChars i.natAbs)

/-! ### Python `str.split(sep)` at the character level -/

/-- Python `s.split(sep)` for a one-character separator: `""` splits to
`[""]`, and separators delimit possibly empty fields. -/
def splitChars (sep : Char) : List Char → List (List Char)
  | [] => [[]]
  | c :: t =>
    if c = sep then [] :: splitChars sep t
    else
      match splitChars sep t with
      | h :: r => (c :: h) :: r
      | [] => [[c]]

/-- Python `cmd.split()`: split on whitespace runs, dropping empty fields. -/
def pySplitAcc : List Char → List Char → List String
  | [], acc => if acc.isEmpty then [] else [String.mk acc.reverse]
  | c :: t, acc =>
    if isPyWs c then
      if acc.isEmpty then pySplitAcc t [] else String.mk acc.reverse :: pySplitAcc t []
    else pySplitAcc t (c :: acc)

def pySplit (s : String) : List String := pySplitAcc s.toList []

/-- Python `str.lower()` (ASCII). -/
def lowerChar (c : Char) : Char :=
  if 'A' ≤ c && c ≤ 'Z' then Char.ofNat (c.toNat + 32) else c

def pyLower (s : String) : String := String.mk (s.toList.map lowerChar)

/-- Python `str.strip()`. -/
def pyStrip (s : String) : String := String.mk (trimChars s.toList)

/-! ### Association lists standing for Python dicts (unique keys) -/

namespace Tbl

def find? [DecidableEq α] : List (α × β) → α → Option β
  | [], _ => none
  | (k, v) :: t, a => if k = a then some v else find? t a

/-- Dict assignment: replace in place if the key exists, else append. -/
def insert [DecidableEq α] : List (α × β) → α → β → List (α × β)
  | [], a, b => [(a, b)]
  | (k, v) :: t, a, b => if k = a then (a, b) :: t else (k, v) :: insert t a b

/-- Dict deletion (`del d[k]`); dict keys are unique, so filtering the key out
is deletion. -/
def erase [DecidableEq α] (l : List (α × β)) (a : α) : List (α × β) :=
  l.filter fun kv => !decide (kv.1 = a)

def contains [DecidableEq α] (l : List (α × β)) (a : α) : Bool :=
  (find? l a).isSome

def keys (l : List (α × β)) : List α := l.map Prod.fst

end Tbl

/-! ### Duplicate-free lists standing for Python sets of ints -/

namespace SetL

def add (l : List Int) (x : Int) : List Int := if x ∈ l then l else l ++ [x]

def discard (l : List Int) (x : Int) : List Int := l.filter fun y => !decide (y = x)

end SetL

/-! ### Basic lemmas about the table and set operations -/

theorem Tbl.find?_insert_self [DecidableEq α] (l : List (α × β)) (k : α) (v : β) :
    Tbl.find? (Tbl.insert l k v) k = some v := by
  induction l with
  | nil => simp [Tbl.insert, Tbl.find?]
  | cons hd t ih =>
    obtain ⟨k', v'⟩ := hd
    by_cases h : k' = k <;> simp [Tbl.insert, Tbl.find?, h, ih]

theorem Tbl.find?_insert_ne [DecidableEq α] (l : List (α × β)) (k a : α) (v : β)
    (h : a ≠ k) : Tbl.find? (Tbl.insert l k v) a = Tbl.find? l a := by
  have hka : ¬ k = a := fun h' => h h'.symm
  induction l with
  | nil => simp [Tbl.insert, Tbl.find?, hka]
  | cons hd t ih =>
    obtain ⟨k', v'⟩ := hd
    by_cases hk : k' = k
    · subst hk
      simp [Tbl.insert, Tbl.find?, hka]
    · by_cases ha : k' = a <;> simp [Tbl.insert, Tbl.find?, hk, ha, ih, hka, h]

theorem Tbl.contains_insert_self [DecidableEq α] (l : List (α × β)) (k : α) (v : β) :
    Tbl.contains (Tbl.insert l k v) k = true := by
  simp [Tbl.contains, Tbl.find?_insert_self]

theorem Tbl.contains_insert_of_contains [DecidableEq α] (l : List (α × β)) (k a : α) (v : β)
    (h : Tbl.contains l a = true) : Tbl.contains (Tbl.insert l k v) a = true := by
  by_cases hak : a = k
  · subst hak; exact Tbl.contains_insert_self l a v
  · simpa [Tbl.contains, Tbl.find?_insert_ne l k a v hak] using h

theorem Tbl.find?_erase_self [DecidableEq α] (l : List (α × β)) (a : α) :
    Tbl.find? (Tbl.erase l a) a = none := by
  induction l with
  | nil => simp [Tbl.erase, Tbl.find?]
  | cons hd t ih =>
    obtain ⟨k, v⟩ := hd
    by_cases h : k = a
    · simpa [Tbl.erase, List.filter_cons, h] using ih
    · simpa [Tbl.erase, List.filter_cons, h, Tbl.find?] using ih

theorem Tbl.find?_erase_ne [DecidableEq α] (l : List (α × β)) (k a : α) (h : a ≠ k) :
    Tbl.find? (Tbl.erase l k) a = Tbl.find? l a := by
  induction l with
  | nil => rfl
  | cons hd t ih =>
    obtain ⟨k', v'⟩ := hd
    by_cases hk : k' = k
    · subst hk
      have hka : ¬ k' = a := fun h' => h h'.symm
      simpa [Tbl.erase, List.filter_cons, Tbl.find?, hka] using ih
    · by_cases ha : k' = a
      · simp [Tbl.erase, List.filter_cons, hk, Tbl.find?, ha, h]
      · simpa [Tbl.erase, List.filter_cons, hk, Tbl.find?, ha] using ih

theorem Tbl.mem_insert [DecidableEq α] (l : List (α × β)) (k : α) (v : β) (p : α × β) :
    p ∈ Tbl.insert l k v → p ∈ l ∨ p = (k, v) := by
  induction l with
  | nil => intro h; simpa [Tbl.insert] using h
  | cons hd t ih =>
    obtain ⟨k', v'⟩ := hd
    intro h
    by_cases hk : k' = k
    · subst hk
      simp only [Tbl.insert, if_true, eq_self_iff_true, List.mem_cons] at h
      rcases h with h2 | h2
      · exact Or.inr h2
      · exact Or.inl (List.mem_cons_of_mem _ h2)
    · simp only [Tbl.insert, if_neg hk, List.mem_cons] at h
      rcases h with h1 | h1
      · exact Or.inl (by simp [h1])
      · rcases ih h1 with h' | h'
        · exact Or.inl (List.mem_cons_of_mem _ h')
        · exact Or.inr h'

theorem Tbl.contains_iff_mem_keys [DecidableEq α] (l : List (α × β)) (a : α) :
    Tbl.contains l a = true ↔ a ∈ Tbl.keys l := by
  induction l with
  | nil => simp [Tbl.contains, Tbl.find?, Tbl.keys]
  | cons hd t ih =>
    obtain ⟨k, v⟩ := hd
    by_cases h : k = a
    · simp [Tbl.contains, Tbl.find?, Tbl.keys, h]
    · have hh : ¬ a = k := fun h' => h h'.symm
      simp only [Tbl.contains, Tbl.find?, Tbl.keys, h, if_false, List.map, List.mem_cons]
      rw [show (Tbl.find? t a).isSome = Tbl.contains t a from rfl, ih]
      simp [Tbl.keys, hh]

theorem SetL.mem_add (l : List Int) (x y : Int) :
    y ∈ SetL.add l x ↔ y ∈ l ∨ y = x := by
  by_cases h : x ∈ l
  · simp only [SetL.add, if_pos h]
    constructor
    · exact Or.inl
    · rintro (hy | rfl) <;> [exact hy; exact h]
  · simp [SetL.add, if_neg h]

theorem SetL.mem_discard (l : List Int) (x y : Int) :
    y ∈ SetL.discard l x ↔ y ∈ l ∧ y ≠ x := by
  simp [SetL.discard]

theorem SetL.self_mem_add (l : List Int) (x : Int) : x ∈ SetL.add l x := by
  simp [SetL.mem_add]

theorem SetL.self_not_mem_discard (l : List Int) (x : Int) : x ∉ SetL.discard l x := by
  simp [SetL.mem_discard]

/-! ### Printing/parsing roundtrip for integers -/

theorem digitVal_dChar : ∀ d : Nat, d < 10 → digitVal (dChar d) = d := by decide

theorem isDig_dChar : ∀ d : Nat, d < 10 → isDig (dChar d) = true := by decide

theorem natToRevDigits_all_dig (n : Nat) : ∀ c ∈ natToRevDigits n, isDig c = true := by
  induction n using Nat.strong_induction_on with
  | _ n ih =>
    match n with
    | 0 => intro c hc; simp [natToRevDigits_zero] at hc
    | m + 1 =>
      intro c hc
      rw [natToRevDigits_succ] at hc
      rcases List.mem_cons.mp hc with h | h
      · exact h ▸ isDig_dChar _ (Nat.mod_lt _ (by norm_num))
      · exact ih ((m + 1) / 10) (Nat.div_lt_self (Nat.succ_pos m) (by norm_num)) c h

theorem natToChars_all_dig (n : Nat) : ∀ c ∈ natToChars n, isDig c = true := by
  intro c hc
  by_cases h : n = 0
  · subst h; simp [natToChars] at hc; subst hc; decide
  · rw [natToChars, if_neg h] at hc
    exact natToRevDigits_all_dig n c (List.mem_reverse.mp hc)

theorem natToChars_ne_nil (n : Nat) : natToChars n ≠ [] := by
  by_cases h : n = 0
  · subst h; simp [natToChars]
  · rw [natToChars, if_neg h]
    intro hrev
    have : natToRevDigits n = [] := by simpa using congrArg List.reverse hrev
    match n, h with
    | m + 1, _ => rw [natToRevDigits_succ] at this; exact List.cons_ne_nil _ _ this

def digAcc (acc : Nat) (c : Char) : Nat := acc * 10 + digitVal c

theorem pyDigitsAux_all_dig (l : List Char) (hd : ∀ c ∈ l, isDig c = true) (acc : Nat) :
    pyDigitsAux acc l = some (l.foldl digAcc acc) := by
  induction l generalizing acc with
  | nil => rfl
  | cons c t ih =>
    have hc : isDig c = true := hd c (List.mem_cons_self _ _)
    rw [pyDigitsAux.eq_def]
    dsimp only
    rw [if_pos hc, List.foldl_cons]
    exact ih (fun x hx => hd x (List.mem_cons_of_mem _ hx)) _

theorem foldl_digAcc_revDigits (n : Nat) : ∀ acc : Nat,
    (natToRevDigits n).reverse.foldl digAcc acc =
      acc * 10 ^ (natToRevDigits n).length + n := by
  induction n using Nat.strong_induction_on with
  | _ n ih =>
    match n with
    | 0 => intro acc; simp [natToRevDigits_zero]
    | m + 1 =>
      intro acc
      rw [natToRevDigits_succ]
      have hdiv : (m + 1) / 10 < m + 1 := Nat.div_lt_self (Nat.succ_pos m) (by norm_num)
      simp only [List.reverse_cons, List.foldl_append, List.foldl_cons, List.foldl_nil,
        List.length_cons]
      rw [ih _ hdiv acc]
      show (acc * 10 ^ (natToRevDigits ((m + 1) / 10)).length + (m + 1) / 10) * 10 +
        digitVal (dChar ((m + 1) % 10)) = _
      rw [digitVal_dChar _ (Nat.mod_lt _ (by norm_num))]
      rw [Nat.add_mul, pow_succ]
      have : (m + 1) / 10 * 10 + (m + 1) % 10 = m + 1 := by omega
      ring_nf
      omega

theorem pyDigits_natToChars (n : Nat) : pyDigits (natToChars n) = some n := by
  by_cases h : n = 0
  · subst h; decide
  · rw [natToChars, if_neg h]
    obtain ⟨c, t, hct⟩ : ∃ c t, (natToRevDigits n).reverse = c :: t := by
      match he : (natToRevDigits n).reverse with
      | [] =>
        exfalso
        have : natToRevDigits n = [] := by simpa using congrArg List.reverse he
        match n, h with
        | m + 1, _ => rw [natToRevDigits_succ] at this; exact List.cons_ne_nil _ _ this
      | c :: t => exact ⟨c, t, rfl⟩
    have hdig : ∀ x ∈ (natToRevDigits n).reverse, isDig x = true := fun x hx =>
      natToRevDigits_all_dig n x (List.mem_reverse.mp hx)
    rw [hct]
    have hc : isDig c = true := by
      apply hdig; rw [hct]; exact List.mem_cons_self _ _
    rw [pyDigits, if_pos hc]
    rw [pyDigitsAux_all_dig t (fun x hx => by
      apply hdig; rw [hct]; exact List.mem_cons_of_mem _ hx)]
    have := foldl_digAcc_revDigits n 0
    rw [hct] at this
    simp only [List.foldl_cons] at this
    rw [show digAcc 0 c = digitVal c from by simp [digAcc]] at this
    simp only [zero_mul, zero_add] at this
    rw [this]

theorem not_ws_of_dig (c : Char) (h : isDig c = true) : isPyWs c = false := by
  have hsp : c ≠ ' ' := fun hc => by subst hc; exact absurd h (by decide)
  have ht : c ≠ '\t' := fun hc => by subst hc; exact absurd h (by decide)
  have hn : c ≠ '\n' := fun hc => by subst hc; exact absurd h (by decide)
  have hr : c ≠ '\r' := fun hc => by subst hc; exact absurd h (by decide)
  simp [isPyWs, hsp, ht, hn, hr]

theorem dropWhile_eq_self_of_not (p : Char → Bool) (l : List Char)
    (h : ∀ c ∈ l, p c = false) : l.dropWhile p = l := by
  cases l with
  | nil => rfl
  | cons c t => rw [List.dropWhile_cons, h c (List.mem_cons_self _ _)]; simp

theorem trimChars_eq_self (l : List Char) (h : ∀ c ∈ l, isPyWs c = false) :
    trimChars l = l := by
  rw [trimChars, dropWhile_eq_self_of_not _ _ h,
    dropWhile_eq_self_of_not _ _ (fun c hc => h c (List.mem_reverse.mp hc)),
    List.reverse_reverse]

theorem dig_ne_plus (c : Char) (h : isDig c = true) : c ≠ '+' := by
  intro hc; subst hc; revert h; decide

theorem dig_ne_minus (c : Char) (h : isDig c = true) : c ≠ '-' := by
  intro hc; subst hc; revert h; decide

theorem dig_ne_underscore (c : Char) (h : isDig c = true) : c ≠ '_' := by
  intro hc; subst hc; revert h; decide

theorem pyIntChars_natToChars (n : Nat) : pyIntChars (natToChars n) = some (n : Int) := by
  obtain ⟨c, t, hct⟩ : ∃ c t, natToChars n = c :: t := by
    match he : natToChars n with
    | [] => exact absurd he (natToChars_ne_nil n)
    | c :: t => exact ⟨c, t, rfl⟩
  have hc : isDig c = true := by
    apply natToChars_all_dig n; rw [hct]; exact List.mem_cons_self _ _
  rw [hct, pyIntChars, if_neg (dig_ne_plus c hc), if_neg (dig_ne_minus c hc), ← hct,
    pyDigits_natToChars]
  rfl

theorem toList_mk (l : List Char) : (String.mk l).toList = l := rfl

/-- Round trip: the decimal rendering of an integer parses back via `int()`. -/
theorem pyInt_intToStr (i : Int) : pyInt (intToStr i) = some i := by
  rw [pyInt, intToStr]
  by_cases h : i < 0
  · rw [if_pos h, toList_mk]
    have hall : ∀ c ∈ '-' :: natToChars i.natAbs, isPyWs c = false := by
      intro c hc
      rcases List.mem_cons.mp hc with h1 | h1
      · subst h1; decide
      · exact not_ws_of_dig c (natToChars_all_dig _ c h1)
    rw [trimChars_eq_self _ hall, pyIntChars, if_neg (by decide), if_pos rfl,
      pyDigits_natToChars]
    show some (-(i.natAbs : Int)) = some i
    congr 1
    omega
  · rw [if_neg h, toList_mk,
      trimChars_eq_self _ (fun c hc => not_ws_of_dig c (natToChars_all_dig _ c hc)),
      pyIntChars_natToChars]
    congr 1
    omega

/-! ### The edge identifier codec -/

def make_edge_name (a b eid : Int) : String :=
  intToStr a ++ "_" ++ intToStr b ++ "_" ++ intToStr eid

/-- `split_edge_name`: return `(a, b)` from `"a_b_eid"`, `(-1, -1)` on any
parse failure (mirrors `name.split("_", 2)` + `int` with the `except` guard). -/
def split_edge_name (name : String) : Int × Int :=
  match splitChars '_' name.toList with
  | p1 :: p2 :: _ :: _ =>
    match pyIntChars (trimChars p1), pyIntChars (trimChars p2) with
    | some x, some y => (x, y)
    | _, _ => (-1, -1)
  | _ => (-1, -1)

/-- Python `{x, y} == {a, b}` for the two-element decoded endpoint sets. -/
def pairEq (x y a b : Int) : Bool := (x == a && y == b) || (x == b && y == a)

theorem splitChars_ne_nil (sep : Char) (l : List Char) : splitChars sep l ≠ [] := by
  induction l with
  | nil => intro hh; simp only [splitChars] at hh; exact List.cons_ne_nil _ _ hh
  | cons c t ih =>
    intro hh
    simp only [splitChars] at hh
    by_cases h : c = sep
    · rw [if_pos h] at hh; exact List.cons_ne_nil _ _ hh
    · rw [if_neg h] at hh
      revert hh
      match hs : splitChars sep t with
      | [] => exact absurd hs ih
      | x :: r => intro hh; exact List.cons_ne_nil _ _ hh

theorem splitChars_no_sep (sep : Char) (l : List Char) (h : ∀ c ∈ l, c ≠ sep) :
    splitChars sep l = [l] := by
  induction l with
  | nil => rfl
  | cons c t ih =>
    rw [splitChars, if_neg (h c (List.mem_cons_self _ _)),
      ih (fun x hx => h x (List.mem_cons_of_mem _ hx))]

theorem splitChars_append_sep (sep : Char) (a b : List Char) (h : ∀ c ∈ a, c ≠ sep) :
    splitChars sep (a ++ sep :: b) = a :: splitChars sep b := by
  induction a with
  | nil => simp [splitChars]
  | cons c t ih =>
    rw [List.cons_append, splitChars, if_neg (h c (List.mem_cons_self _ _)),
      ih (fun x hx => h x (List.mem_cons_of_mem _ hx))]

theorem intToStr_no_underscore (i : Int) : ∀ c ∈ (intToStr i).toList, c ≠ '_' := by
  intro c hc
  rw [intToStr] at hc
  by_cases h : i < 0
  · rw [if_pos h, toList_mk] at hc
    rcases List.mem_cons.mp hc with h1 | h1
    · subst h1; decide
    · exact dig_ne_underscore c (natToChars_all_dig _ c h1)
  · rw [if_neg h, toList_mk] at hc
    exact dig_ne_underscore c (natToChars_all_dig _ c hc)

theorem intToStr_trim (i : Int) : trimChars (intToStr i).toList = (intToStr i).toList := by
  apply trimChars_eq_self
  intro c hc
  rw [intToStr] at hc
  by_cases h : i < 0
  · rw [if_pos h, toList_mk] at hc
    rcases List.mem_cons.mp hc with h1 | h1
    · subst h1; decide
    · exact not_ws_of_dig c (natToChars_all_dig _ c h1)
  · rw [if_neg h, toList_mk] at hc
    exact not_ws_of_dig c (natToChars_all_dig _ c hc)

theorem pyIntChars_intToStr (i : Int) : pyIntChars (trimChars (intToStr i).toList) = some i := by
  rw [intToStr_trim]
  have := pyInt_intToStr i
  rw [pyInt] at this
  rw [intToStr_trim] at this
  exact this

theorem toList_append (s t : String) : (s ++ t).toList = s.toList ++ t.toList :=
  String.data_append s t

/-- Decoding a canonically encoded edge name recovers its endpoints. -/
theorem split_make_edge_name (a b eid : Int) :
    split_edge_name (make_edge_name a b eid) = (a, b) := by
  rw [split_edge_name, make_edge_name]
  have hlist : (intToStr a ++ "_" ++ intToStr b ++ "_" ++ intToStr eid).toList =
      (intToStr a).toList ++ '_' :: ((intToStr b).toList ++ '_' :: (intToStr eid).toList) := by
    rw [toList_append, toList_append, toList_append, toList_append]
    simp [List.append_assoc]
  rw [hlist, splitChars_append_sep _ _ _ (intToStr_no_underscore a),
    splitChars_append_sep _ _ _ (intToStr_no_underscore b),
    splitChars_no_sep _ _ (intToStr_no_underscore eid)]
  simp only [pyIntChars_intToStr]

/-! ### The Store: nodes, edges, clusters, current isolation view -/

structure ClusterData where
  nodes : List Int
  value : String
  deriving DecidableEq, Repr

structure Store where
  nodes : List (Int × String)
  edges : List (String × String)
  clusters : List (String × ClusterData)
  currentView : String
  deriving DecidableEq, Repr

def DEFAULT_CLUSTER : String := "_all_"

/-- `_sync_default_cluster`: refresh the automatic `_all_` cluster to hold
every registered node. (In the source the node values are arbitrary objects;
the `(csv)`/importer value is the id itself, rendered here as its decimal
string.) -/
def sync_default (s : Store) : Store :=
  { s with clusters :=
      Tbl.insert s.clusters DEFAULT_CLUSTER ⟨Tbl.keys s.nodes, "All existing nodes"⟩ }

/-- The node set visible under an explicit view name (the resolver of the
spec); the source reads `self.clusters[self.current_view]` directly, which can
only be missing in states the remove-cluster guard excludes, so the missing
case is totalised to the empty membership. -/
def visible_nodes_of (s : Store) (view : String) : List Int :=
  if view = DEFAULT_CLUSTER then Tbl.keys s.nodes
  else
    match Tbl.find? s.clusters view with
    | some d => d.nodes
    | none => []

def visible_nodes (s : Store) : List Int := visible_nodes_of s s.currentView

def visible_edge (s : Store) (e : String) : Bool :=
  let ab := split_edge_name e
  (visible_nodes s).contains ab.1 && (visible_nodes s).contains ab.2

/-- `edge_in_cluster`: both decoded endpoints belong to the named cluster
(call sites guard that the cluster exists). -/
def edge_in_cluster (s : Store) (cname : String) (e : String) : Bool :=
  let ab := split_edge_name e
  match Tbl.find? s.clusters cname with
  | some d => d.nodes.contains ab.1 && d.nodes.contains ab.2
  | none => false

/-- Neighbour ids of `nid` in the current view (a Python set, built by
scanning every edge). -/
def neighbours_view (s : Store) (nid : Int) : List Int :=
  (Tbl.keys s.edges).foldl
    (fun out e =>
      if !visible_edge s e then out
      else
        let ab := split_edge_name e
        if ab.1 = nid then SetL.add out ab.2
        else if ab.2 = nid then SetL.add out ab.1
        else out)
    []

/-- Neighbour ids of `nid` inside an explicit cluster. -/
def neighbours_cluster (s : Store) (cname : String) (nid : Int) : List Int :=
  if Tbl.contains s.clusters cname = false then []
  else
    (Tbl.keys s.edges).foldl
      (fun out e =>
        if !edge_in_cluster s cname e then out
        else
          let ab := split_edge_name e
          if ab.1 = nid then SetL.add out ab.2
          else if ab.2 = nid then SetL.add out ab.1
          else out)
      []

/-! ### Sorting helpers (Python `sorted` / `list.sort`, stable) -/

def insSortedBy (le : α → α → Bool) (x : α) : List α → List α
  | [] => [x]
  | y :: t => if le x y then x :: y :: t else y :: insSortedBy le x t

def sortBy (le : α → α → Bool) (l : List α) : List α := l.foldr (insSortedBy le) []

def intLe (a b : Int) : Bool := a ≤ b

def sortInts (l : List Int) : List Int := sortBy intLe l

def lenLe (p q : List α) : Bool := p.length ≤ q.length

def sortByLen (l : List (List α)) : List (List α) := sortBy lenLe l

theorem mem_insSortedBy (le : α → α → Bool) (x : α) (l : List α) (z : α)
    (hz : z ∈ insSortedBy le x l) : z = x ∨ z ∈ l := by
  induction l with
  | nil => simp [insSortedBy] at hz; exact Or.inl hz
  | cons y t ih =>
    rw [insSortedBy] at hz
    by_cases h : le x y = true
    · rw [if_pos h] at hz
      rcases List.mem_cons.mp hz with h1 | h1
      · exact Or.inl h1
      · exact Or.inr h1
    · rw [if_neg h] at hz
      rcases List.mem_cons.mp hz with h1 | h1
      · exact Or.inr (h1 ▸ List.mem_cons_self _ _)
      · rcases ih h1 with h2 | h2
        · exact Or.inl h2
        · exact Or.inr (List.mem_cons_of_mem _ h2)

theorem sorted_insSortedBy (le : α → α → Bool)
    (htrans : ∀ a b c, le a b = true → le b c = true → le a c = true)
    (htot : ∀ a b, le a b = false → le b a = true) (x : α) (l : List α)
    (hl : l.Pairwise fun a b => le a b = true) :
    (insSortedBy le x l).Pairwise fun a b => le a b = true := by
  induction l with
  | nil => simp [insSortedBy]
  | cons y t ih =>
    rw [List.pairwise_cons] at hl
    by_cases h : le x y = true
    · rw [insSortedBy, if_pos h]
      refine List.pairwise_cons.mpr ⟨?_, List.pairwise_cons.mpr hl⟩
      intro z hz
      rcases List.mem_cons.mp hz with h1 | h1
      · exact h1 ▸ h
      · exact htrans x y z h (hl.1 z h1)
    · rw [insSortedBy, if_neg h]
      refine List.pairwise_cons.mpr ⟨?_, ih hl.2⟩
      intro z hz
      rcases mem_insSortedBy le x t z hz with h1 | h1
      · exact h1 ▸ htot x y (by revert h; cases le x y <;> simp)
      · exact hl.1 z h1

theorem sorted_sortBy (le : α → α → Bool)
    (htrans : ∀ a b c, le a b = true → le b c = true → le a c = true)
    (htot : ∀ a b, le a b = false → le b a = true) (l : List α) :
    (sortBy le l).Pairwise fun a b => le a b = true := by
  induction l with
  | nil => simp [sortBy]
  | cons x t ih => exact sorted_insSortedBy le htrans htot x _ ih

theorem sorted_sortByLen (l : List (List α)) :
    (sortByLen l).Pairwise fun p q => p.length ≤ q.length := by
  have := sorted_sortBy lenLe
    (fun a b c h1 h2 => by
      simp only [lenLe, decide_eq_true_eq] at h1 h2 ⊢; omega)
    (fun a b h => by
      simp only [lenLe, decide_eq_false_iff_not, decide_eq_true_eq] at h ⊢; omega) l
  exact this.imp fun h => by simpa [lenLe] using h

/-! ### The path engine: adjacency projection, DFS all paths, BFS shortest -/

/-- The adjacency map (`defaultdict(set)` in the source): node id to the
duplicate-free list of directly reachable ids. -/
abbrev Graph := List (Int × List Int)

/-- `graph[a].add(b)`: create the entry on first touch, append-deduplicate. -/
def adjAdd (g : Graph) (a b : Int) : Graph :=
  Tbl.insert g a (SetL.add ((Tbl.find? g a).getD []) b)

/-- The undirected adjacency projection restricted to the given edges and
nodes, built exactly as both path searches build it. Neighbour iteration
order in the source is Python-set order (implementation-defined); here it is
edge-list order. -/
def buildGraph (edges_ok : List String) (nodes_ok : List Int) : Graph :=
  edges_ok.foldl
    (fun g e =>
      let ab := split_edge_name e
      if nodes_ok.contains ab.1 && nodes_ok.contains ab.2 then
        adjAdd (adjAdd g ab.1 ab.2) ab.2 ab.1
      else g)
    []

def nbrs (g : Graph) (x : Int) : List Int := (Tbl.find? g x).getD []

/-- `_edge_between`: any edge name in the pool connecting `a` and `b`. -/
def edge_between (edge_pool : List String) (a b : Int) : Option String :=
  edge_pool.find? fun e =>
    let xy := split_edge_name e
    pairEq xy.1 xy.2 a b

/-- One element of a returned path: the Python lists interleave int node ids
with (optional) edge-name strings. -/
inductive PElem
  | node (n : Int)
  | edge (e : Option String)
  deriving DecidableEq, Repr

/-- Interleave a node path with its recorded edge path
(`[n0, e0, n1, e1, ..., nK]`). -/
def interleaveNE : List Int → List (Option String) → List PElem
  | [], _ => []
  | n :: ns, [] => PElem.node n :: interleaveNE ns []
  | n :: ns, e :: es => PElem.node n :: PElem.edge e :: interleaveNE ns es

/-- Interleave a node path, choosing a connecting edge per step at emission
time (the BFS return path in the source). -/
def stitch (edge_pool : List String) : List Int → List PElem
  | [] => []
  | [a] => [PElem.node a]
  | a :: b :: rest => PElem.node a :: PElem.edge (edge_between edge_pool a b) ::
      stitch edge_pool (b :: rest)

/-- DFS enumeration of all simple paths (`_all_paths`); the stack is popped
from its end in the source, modelled here with the head as the stack top and
pushes consing in neighbour order. `fuel` bounds the number of pops; the
number of stack entries ever created is finite (each entry's node path is a
duplicate-free sequence), so a generous fuel makes the model total. -/
def allPathsAux (g : Graph) (edge_pool : List String) (dst : Int) :
    Nat → List (Int × List Int × List (Option String)) → List (List PElem) →
    List (List PElem)
  | 0, _, acc => acc
  | _ + 1, [], acc => acc
  | fuel + 1, (node, npath, epath) :: st, acc =>
    if node = dst then
      allPathsAux g edge_pool dst fuel st (acc ++ [interleaveNE npath epath])
    else
      let st' := (nbrs g node).foldl
        (fun st2 nbr =>
          if npath.contains nbr then st2
          else (nbr, npath ++ [nbr], epath ++ [edge_between edge_pool node nbr]) :: st2)
        st
      allPathsAux g edge_pool dst fuel st' acc

/-- Fuel bound for the DFS: an overcount of the number of duplicate-free
node sequences over the involved ids. -/
def pathsFuel (nodes_ok : List Int) : Nat :=
  (nodes_ok.length + 2) * (nodes_ok.length + 2).factorial

def all_paths (src dst : Int) (edges_ok : List String) (nodes_ok : List Int) :
    List (List PElem) :=
  let g := buildGraph edges_ok nodes_ok
  allPathsAux g edges_ok dst (pathsFuel nodes_ok) [(src, [src], [])] []

/-- BFS shortest path (`_shortest_path`); queue popped from the front,
enqueues appended at the back, `seen` marked at enqueue time. -/
def bfsAux (g : Graph) (edge_pool : List String) (dst : Int) :
    Nat → List (Int × List Int) → List Int → List PElem
  | 0, _, _ => []
  | _ + 1, [], _ => []
  | fuel + 1, (node, npath) :: q, seen =>
    if node = dst then stitch edge_pool npath
    else
      let qs := (nbrs g node).foldl
        (fun (p : List (Int × List Int) × List Int) nbr =>
          if p.2.contains nbr then p
          else (p.1 ++ [(nbr, npath ++ [nbr])], p.2 ++ [nbr]))
        (q, seen)
      bfsAux g edge_pool dst fuel qs.1 qs.2

def shortest_path (src dst : Int) (edges_ok : List String) (nodes_ok : List Int) :
    List PElem :=
  let g := buildGraph edges_ok nodes_ok
  bfsAux g edges_ok dst ((Tbl.keys g).length + 2) [(src, [src])] [src]

/-! ### Remaining store helpers from the source -/

/-- `_next_eid`: one past the maximum sequence id already used between the
unordered pair; raises `ValueError` when an existing edge key does not split
into exactly three parts or its endpoint parts are not integers. -/
def next_eid (edges : List (String × String)) (a b : Int) : Except PyErr Int := do
  let m ← (Tbl.keys edges).foldlM
    (fun (m : Int) k =>
      match splitChars '_' k.toList with
      | [x, y, e] =>
        match pyIntChars (trimChars x), pyIntChars (trimChars y) with
        | some xi, some yi =>
          if pairEq xi yi a b then
            match pyIntChars (trimChars e) with
            | some ei => pure (max m ei)
            | none => Except.error PyErr.valueError
          else pure m
        | _, _ => Except.error PyErr.valueError
      | _ => Except.error PyErr.valueError)
    (0 : Int)
  pure (m + 1)

def pairLexLe (p q : Int × Int) : Bool :=
  p.1 < q.1 || (p.1 == q.1 && p.2 ≤ q.2)

def eidLe (p q : Int × String) : Bool := p.1 ≤ q.1

/-- `fmt_edges`: group well-formed keys by endpoint pair, skipping malformed
ones (the `except ValueError: continue`). -/
def fmt_edges (ed : List (String × String)) : String :=
  let grouped : List ((Int × Int) × List (Int × String)) :=
    ed.foldl
      (fun acc kv =>
        match splitChars '_' kv.1.toList with
        | [x, y, e] =>
          match pyIntChars (trimChars x), pyIntChars (trimChars y),
              pyIntChars (trimChars e) with
          | some i, some j, some eid =>
            Tbl.insert acc (i, j) (((Tbl.find? acc (i, j)).getD []) ++ [(eid, kv.2)])
          | _, _, _ => acc
        | _ => acc)
      []
  if grouped.isEmpty then "[INFO] no edges"
  else
    let entries := sortBy (fun p q => pairLexLe p.1 q.1) grouped
    let lines := (entries.foldl
      (fun (p : List String × List Int) entry =>
        let inside := String.intercalate " , "
          ((sortBy eidLe entry.2).map fun ev => intToStr ev.1 ++ ": " ++ ev.2)
        if entry.1.1 ∈ p.2 then
          (p.1 ++ ["-> " ++ intToStr entry.1.2 ++ ": [ " ++ inside ++ " ]"], p.2)
        else
          (p.1 ++ [intToStr entry.1.1 ++ " -> " ++ intToStr entry.1.2 ++ ": [ " ++
            inside ++ " ]"], p.2 ++ [entry.1.1]))
      ([], []))
    String.intercalate "\n" lines.1

/-! ### Shared formatting helpers -/

def strOfNat (n : Nat) : String := String.mk (natToChars n)

def intListRepr (l : List Int) : String :=
  "[" ++ String.intercalate ", " (l.map intToStr) ++ "]"

def pelemRepr (p : PElem) : String :=
  match p with
  | .node n => intToStr n
  | .edge (some e) => "\x27" ++ e ++ "\x27"
  | .edge none => "None"

def pathStr (p : List PElem) : String :=
  "[" ++ String.intercalate ", " (p.map pelemRepr) ++ "]"

def dictRepr (ed : List (String × String)) : String :=
  "\x7b" ++ String.intercalate ", "
    (ed.map fun kv => "\x27" ++ kv.1 ++ "\x27: \x27" ++ kv.2 ++ "\x27") ++ "\x7d"

/-! ### Store primitives used by the node commands -/

/-- `self.clusters[c]["nodes"].add(nid)`; the view always names a live
cluster, so the missing case (a `KeyError` in the source) is a no-op here. -/
def clusterAddMember (cls : List (String × ClusterData)) (c : String) (nid : Int) :
    List (String × ClusterData) :=
  match Tbl.find? cls c with
  | some d => Tbl.insert cls c ⟨SetL.add d.nodes nid, d.value⟩
  | none => cls

/-- `node new`: register, refresh the default cluster, and auto-add to the
isolated view when one is active. -/
def addNode (s : Store) (nid : Int) (val : String) : Store :=
  let s1 := sync_default { s with nodes := Tbl.insert s.nodes nid val }
  if s1.currentView = DEFAULT_CLUSTER then s1
  else { s1 with clusters := clusterAddMember s1.clusters s1.currentView nid }

/-- `node rmv`: delete the node, every incident edge, prune every cluster
membership, then refresh the default cluster. -/
def removeNode (s : Store) (nid : Int) : Store :=
  sync_default
    { s with
      nodes := Tbl.erase s.nodes nid,
      edges := s.edges.filter fun kv =>
        let ab := split_edge_name kv.1
        !(decide (ab.1 = nid) || decide (ab.2 = nid)),
      clusters := s.clusters.map fun cd =>
        (cd.1, ⟨SetL.discard cd.2.nodes nid, cd.2.value⟩) }

/-- `int()` on a token already validated by `isdigit()` (cannot fail). -/
def pyIntD (t : String) : Int := (pyInt t).getD 0

/-- `parse_edge_id`: a canonical triple of digit tokens, or a single name. -/
def parse_edge_id (tokens : List String) : String × String :=
  match tokens with
  | [a, b, c] =>
    if pyIsDigit a && pyIsDigit b && pyIsDigit c then
      (make_edge_name (pyIntD a) (pyIntD b) (pyIntD c), "")
    else ("", "[ERROR] invalid edge identifier")
  | [t] => (t, "")
  | _ => ("", "[ERROR] invalid edge identifier")

/-! ### Edge pools handed to the path engine -/

def visibleEdgeKeys (s : Store) : List String :=
  (Tbl.keys s.edges).filter (visible_edge s)

def clusterEdgeKeys (s : Store) (cname : String) : List String :=
  (Tbl.keys s.edges).filter (edge_in_cluster s cname)

/-- The collection returned by the global `node allp` handler: sorted by path
length, ascending, before rendering. -/
def node_allp_list (s : Store) (src dst : Int) : List (List PElem) :=
  sortByLen (all_paths src dst (visibleEdgeKeys s) (visible_nodes s))

/-- The collection returned by the cluster-scoped `<cl> node allp` handler:
the raw DFS output, rendered without sorting. -/
def cluster_allp_list (s : Store) (cname : String) (src dst : Int) : List (List PElem) :=
  all_paths src dst (clusterEdgeKeys s cname) (visible_nodes_of s cname)

/-! ### Global `node` commands (`_node`) -/

/-- The read-only `node list` branch: it prints without touching the store. -/
def node_list (s : Store) : String :=
  if (visible_nodes s).isEmpty then "[INFO] no nodes"
  else
    String.intercalate "\n" ((sortInts (visible_nodes s)).map fun nid =>
      "Node " ++ intToStr nid ++ ": " ++ (Tbl.find? s.nodes nid).getD "")

def node_new (s : Store) (toks rest : List String) : Except PyErr String × Store :=
  if toks.length < 3 then (.ok "Usage: node new <id> <value>", s)
  else
    match pyInt (rest.headD "") with
    | none => (.error .valueError, s)
    | some nid =>
      if Tbl.contains s.nodes nid then (.ok "[ERROR] node exists", s)
      else
        (.ok ("Node " ++ intToStr nid ++ " added."),
          addNode s nid (String.intercalate " " (rest.drop 1)))

def node_get (s : Store) (toks rest : List String) : Except PyErr String :=
  if toks.length ≠ 2 then .ok "Usage: node get <id>"
  else
    match pyInt (rest.headD "") with
    | none => .error .valueError
    | some nid =>
      if !(visible_nodes s).contains nid then .ok "[ERROR] node not in current view"
      else
        match Tbl.find? s.nodes nid with
        | some v => .ok v
        | none => .error .keyError

def node_up (s : Store) (toks rest : List String) : Except PyErr String × Store :=
  if toks.length < 3 then (.ok "Usage: node up <id> <value>", s)
  else
    match pyInt (rest.headD "") with
    | none => (.error .valueError, s)
    | some nid =>
      if !(visible_nodes s).contains nid then (.ok "[ERROR] node not in current view", s)
      else
        (.ok ("Node " ++ intToStr nid ++ " updated."),
          { s with nodes := Tbl.insert s.nodes nid (String.intercalate " " (rest.drop 1)) })

def node_rmv (s : Store) (toks rest : List String) : Except PyErr String × Store :=
  if toks.length ≠ 2 then (.ok "Usage: node rmv <id>", s)
  else
    match pyInt (rest.headD "") with
    | none => (.error .valueError, s)
    | some nid =>
      if !(visible_nodes s).contains nid then (.ok "[ERROR] node not in current view", s)
      else (.ok ("Node " ++ intToStr nid ++ " removed."), removeNode s nid)

def node_nbr (s : Store) (toks rest : List String) : Except PyErr String :=
  if toks.length ≠ 2 then .ok "Usage: node nbr <id>"
  else
    match pyInt (rest.headD "") with
    | none => .error .valueError
    | some nid =>
      if !(visible_nodes s).contains nid then .ok "[ERROR] node not in current view"
      else
        if (neighbours_view s nid).isEmpty then .ok "[INFO] no neighbour"
        else .ok (String.intercalate ", " ((sortInts (neighbours_view s nid)).map intToStr))

def node_n (s : Store) (toks rest : List String) : Except PyErr String :=
  if toks.length ≠ 2 then .ok "Usage: node n <id>"
  else
    match pyInt (rest.headD "") with
    | none => .error .valueError
    | some nid =>
      if !(visible_nodes s).contains nid then .ok "[ERROR] node not in current view"
      else .ok (strOfNat (neighbours_view s nid).length)

def node_allp (s : Store) (toks rest : List String) : Except PyErr String :=
  if toks.length ≠ 3 then .ok "Usage: node allp <src> <dst>"
  else
    match pyInt (rest.headD ""), pyInt ((rest.drop 1).headD "") with
    | none, _ => .error .valueError
    | _, none => .error .valueError
    | some src, some dst =>
      if !(visible_nodes s).contains src || !(visible_nodes s).contains dst then
        .ok ("[ERROR] nodes " ++ intToStr src ++ " /  nodes " ++ intToStr dst ++
          " not in current view")
      else
        if (node_allp_list s src dst).isEmpty then
          .ok ("[INFO] no path from " ++ intToStr src ++ " -> " ++ intToStr dst)
        else
          .ok (String.intercalate "\n" ((node_allp_list s src dst).map fun p =>
            strOfNat (p.length / 2) ++ " : " ++ pathStr p))

def node_p (s : Store) (toks rest : List String) : Except PyErr String :=
  if toks.length ≠ 3 then .ok "Usage: node p <src> <dst>"
  else
    match pyInt (rest.headD ""), pyInt ((rest.drop 1).headD "") with
    | none, _ => .error .valueError
    | _, none => .error .valueError
    | some src, some dst =>
      if !(visible_nodes s).contains src || !(visible_nodes s).contains dst then
        .ok ("[ERROR] nodes " ++ intToStr src ++ " /  nodes " ++ intToStr dst ++
          " not in current view")
      else
        let path := shortest_path src dst (visibleEdgeKeys s) (visible_nodes s)
        if path.isEmpty then
          .ok ("[INFO] no path from " ++ intToStr src ++ " -> " ++ intToStr dst)
        else .ok (pathStr path)

def nodeCmd (s : Store) (toks : List String) : Except PyErr String × Store :=
  match toks with
  | [] => (.ok "[ERROR] node sub-command missing", s)
  | t0 :: rest =>
    if pyLower t0 = "list" then (.ok (node_list s), s)
    else if pyLower t0 = "new" then node_new s toks rest
    else if pyLower t0 = "get" then (node_get s toks rest, s)
    else if pyLower t0 = "up" then node_up s toks rest
    else if pyLower t0 = "rmv" || pyLower t0 = "rmb" then node_rmv s toks rest
    else if pyLower t0 = "nbr" || pyLower t0 = "neigh" || pyLower t0 = "neighbors" then
      (node_nbr s toks rest, s)
    else if pyLower t0 = "n" then (node_n s toks rest, s)
    else if pyLower t0 = "allp" then (node_allp s toks rest, s)
    else if pyLower t0 = "p" then (node_p s toks rest, s)
    else (.ok "[ERROR] unknown node sub-command", s)

/-! ### Global `edge` commands (`_edge`) -/

/-- The read-only `edge list` branch. -/
def edge_list (s : Store) : String :=
  fmt_edges (s.edges.filter fun kv => visible_edge s kv.1)

def edge_new (s : Store) (toks rest : List String) : Except PyErr String × Store :=
  if toks.length < 5 || !((rest.take 3).all pyIsDigit) then
    (.ok "Usage: edge new <id1> <id2> <eid> <value>", s)
  else
    if !(visible_nodes s).contains (pyIntD (rest.headD "")) ||
        !(visible_nodes s).contains (pyIntD ((rest.drop 1).headD "")) then
      (.ok "[ERROR] nodes must be in current view", s)
    else
      if Tbl.contains s.edges (make_edge_name (pyIntD (rest.headD ""))
          (pyIntD ((rest.drop 1).headD "")) (pyIntD ((rest.drop 2).headD ""))) then
        (.ok "[ERROR] edge exists", s)
      else
        (.ok ("Edge " ++ make_edge_name (pyIntD (rest.headD ""))
            (pyIntD ((rest.drop 1).headD "")) (pyIntD ((rest.drop 2).headD "")) ++
            " added."),
          { s with edges :=
              (Tbl.insert s.edges (make_edge_name (pyIntD (rest.headD ""))
                (pyIntD ((rest.drop 1).headD "")) (pyIntD ((rest.drop 2).headD "")))
                (String.intercalate " " (rest.drop 3))) })

def edge_get (s : Store) (toks rest : List String) : Except PyErr String :=
  if toks.length = 3 && rest.all pyIsDigit then
    if !(visible_nodes s).contains (pyIntD (rest.headD "")) ||
        !(visible_nodes s).contains (pyIntD ((rest.drop 1).headD "")) then
      .ok "[ERROR] nodes not in current view"
    else
      if (s.edges.filter fun kv =>
          pairEq (split_edge_name kv.1).1 (split_edge_name kv.1).2
            (pyIntD (rest.headD "")) (pyIntD ((rest.drop 1).headD ""))).isEmpty then
        .ok "[INFO] no edge"
      else
        .ok (dictRepr (s.edges.filter fun kv =>
          pairEq (split_edge_name kv.1).1 (split_edge_name kv.1).2
            (pyIntD (rest.headD "")) (pyIntD ((rest.drop 1).headD ""))))
  else
    if (parse_edge_id (rest.take 1)).2 ≠ "" then .ok (parse_edge_id (rest.take 1)).2
    else if !Tbl.contains s.edges (parse_edge_id (rest.take 1)).1 then
      .ok "[ERROR] edge not found"
    else if !visible_edge s (parse_edge_id (rest.take 1)).1 then
      .ok "[ERROR] edge not in current view"
    else
      match Tbl.find? s.edges (parse_edge_id (rest.take 1)).1 with
      | some v => .ok v
      | none => .error .keyError

def edge_rmv (s : Store) (rest : List String) : Except PyErr String × Store :=
  if (parse_edge_id rest).2 ≠ "" then (.ok (parse_edge_id rest).2, s)
  else if !Tbl.contains s.edges (parse_edge_id rest).1 then
    (.ok "[ERROR] edge not found", s)
  else if !visible_edge s (parse_edge_id rest).1 then
    (.ok "[ERROR] edge not in current view", s)
  else
    (.ok ("Edge " ++ (parse_edge_id rest).1 ++ " removed."),
      { s with edges := Tbl.erase s.edges (parse_edge_id rest).1 })

def edge_up (s : Store) (toks rest : List String) : Except PyErr String × Store :=
  if toks.length ≥ 4 && pyIsDigit (rest.headD "") && pyIsDigit ((rest.drop 1).headD "") then
    if !(visible_nodes s).contains (pyIntD (rest.headD "")) ||
        !(visible_nodes s).contains (pyIntD ((rest.drop 1).headD "")) then
      (.ok "[ERROR] nodes not in current view", s)
    else
      (.ok (strOfNat (s.edges.filter fun kv =>
          pairEq (split_edge_name kv.1).1 (split_edge_name kv.1).2
            (pyIntD (rest.headD "")) (pyIntD ((rest.drop 1).headD ""))).length ++
          " edge(s) updated."),
        { s with edges := (s.edges.map fun kv =>
            if pairEq (split_edge_name kv.1).1 (split_edge_name kv.1).2
                (pyIntD (rest.headD "")) (pyIntD ((rest.drop 1).headD "")) then
              (kv.1, String.intercalate " " (rest.drop 2))
            else kv) })
  else
    if (parse_edge_id (rest.take 1)).2 ≠ "" then (.ok (parse_edge_id (rest.take 1)).2, s)
    else if toks.length < 3 then (.ok "Usage: edge up <edgeName> <value>", s)
    else if !visible_edge s (parse_edge_id (rest.take 1)).1 then
      (.ok "[ERROR] edge not in current view", s)
    else
      (.ok ("Edge " ++ (parse_edge_id (rest.take 1)).1 ++ " updated."),
        { s with edges := (Tbl.insert s.edges (parse_edge_id (rest.take 1)).1
            (String.intercalate " " (rest.drop 1))) })

def edgeCmd (s : Store) (toks : List String) : Except PyErr String × Store :=
  match toks with
  | [] => (.ok "[ERROR] edge sub-command missing", s)
  | t0 :: rest =>
    if pyLower t0 = "list" then (.ok (edge_list s), s)
    else if pyLower t0 = "new" then edge_new s toks rest
    else if pyLower t0 = "get" then (edge_get s toks rest, s)
    else if pyLower t0 = "rmv" || pyLower t0 = "rmb" then edge_rmv s rest
    else if pyLower t0 = "up" then edge_up s toks rest
    else (.ok "[ERROR] unknown edge sub-command", s)

/-! ### The CSV adjacency-matrix importer (`cluster open`) -/

/-- The file system seen by the importer: a path either fails to open or
yields already-CSV-split rows. -/
def FS := String → Option (List (List String))

/-- `int(x)` over the header row cells; `none` models the `ValueError`. -/
def colInts : List String → Option (List Int)
  | [] => some []
  | c :: rest =>
    match pyInt c with
    | none => none
    | some v => (colInts rest).map (v :: ·)

/-- `int(r[0])` over the body rows: an empty row raises `IndexError`, a
non-integer head raises `ValueError`. -/
def rowHeadInts : List (List String) → Except PyErr (List Int)
  | [] => .ok []
  | r :: rest =>
    match r with
    | [] => .error .indexError
    | h :: _ =>
      match pyInt h with
      | none => .error .valueError
      | some v => (rowHeadInts rest).map (v :: ·)

/-- Register every header id not yet known; the source stores the raw int as
the node's value (`self.nodes[nid] = nid`), rendered here as its decimal
string. Returns the table and the count of added nodes. -/
def regNodes (nodes : List (Int × String)) (ids : List Int) : List (Int × String) × Nat :=
  ids.foldl
    (fun p nid =>
      if Tbl.contains p.1 nid then p else (Tbl.insert p.1 nid (intToStr nid), p.2 + 1))
    (nodes, 0)

/-- One matrix row: walk the cells left of the header column, creating an
edge per non-empty/non-`"0"` cell; a cell index beyond the header raises
`IndexError` with the edges added so far kept. -/
def importCellsRow (col_ids : List Int) (rid : Int) :
    List String → Nat → List (String × String) → Nat →
    Option PyErr × List (String × String) × Nat
  | [], _, edges, cnt => (none, edges, cnt)
  | cell :: rest, cIdx, edges, cnt =>
    if pyStrip cell = "" || pyStrip cell = "0" then
      importCellsRow col_ids rid rest (cIdx + 1) edges cnt
    else
      match col_ids.get? cIdx with
      | none => (some .indexError, edges, cnt)
      | some cid =>
        match next_eid edges rid cid with
        | .error e => (some e, edges, cnt)
        | .ok eid =>
          importCellsRow col_ids rid rest (cIdx + 1)
            (Tbl.insert edges (make_edge_name rid cid eid) (pyStrip cell)) (cnt + 1)

def importCells (col_ids : List Int) :
    List (Int × List String) → List (String × String) → Nat →
    Option PyErr × List (String × String) × Nat
  | [], edges, cnt => (none, edges, cnt)
  | (rid, row) :: rest, edges, cnt =>
    match importCellsRow col_ids rid (row.drop 1) 0 edges cnt with
    | (some e, edges1, cnt1) => (some e, edges1, cnt1)
    | (none, edges1, cnt1) => importCells col_ids rest edges1 cnt1

/-- `import_csv_matrix`: read the matrix, register header nodes, create the
fresh cluster over the column ids, then create the edges and refresh the
default cluster. Mirrors the source's mutation order: nodes are registered
before the duplicate-cluster check. -/
def import_csv_matrix (fs : FS) (s : Store) (file_path cluster_name : String) :
    Except PyErr String × Store :=
  match fs file_path with
  | none => (.ok ("[ERROR] cannot open file: " ++ file_path), s)
  | some rows =>
    match rows with
    | [] => (.ok "[ERROR] invalid matrix format", s)
    | r0 :: rtl =>
      if r0.length < 2 then (.ok "[ERROR] invalid matrix format", s)
      else
        match colInts (r0.drop 1) with
        | none => (.error .valueError, s)
        | some col_ids =>
          match rowHeadInts rtl with
          | .error e => (.error e, s)
          | .ok row_ids =>
            let reg := regNodes s.nodes ((col_ids ++ row_ids).foldl SetL.add [])
            let s1 := { s with nodes := reg.1 }
            if Tbl.contains s1.clusters cluster_name then
              (.ok "[ERROR] cluster already exists", s1)
            else
              let newCl : ClusterData := ⟨col_ids.foldl SetL.add [], "CSV:" ++ file_path⟩
              let s2 := { s1 with clusters := Tbl.insert s1.clusters cluster_name newCl }
              match importCells col_ids (row_ids.zip rtl) s2.edges 0 with
              | (some e, edges1, _) => (.error e, { s2 with edges := edges1 })
              | (none, edges1, cnt) =>
                (.ok ("Imported " ++ strOfNat reg.2 ++ " node(s) and " ++ strOfNat cnt ++
                    " edge(s) into cluster \x27" ++ cluster_name ++ "\x27."),
                  sync_default { s2 with edges := edges1 })

/-! ### Global `cluster` commands (`_cluster`) -/

/-- The read-only `cluster list` branch. -/
def cluster_list (s : Store) : String :=
  if s.clusters.isEmpty then "[INFO] no clusters"
  else
    String.intercalate "\n"
      ((sortBy (fun p q => decide (p.1 ≤ q.1)) s.clusters).map fun cd =>
        cd.1 ++ ": val=" ++ cd.2.value ++ " nodes=" ++ intListRepr (sortInts cd.2.nodes))

/-- The node ids scraped from the leading digit tokens of `cluster new`
(insertion-ordered, deduplicated, like the Python set built with `dict` order
of first occurrence). -/
def cluster_new_ids (rest : List String) : List Int :=
  (rest.takeWhile pyIsDigit).foldl (fun acc t => SetL.add acc (pyIntD t)) []

def cluster_new (s : Store) (toks rest : List String) : Except PyErr String × Store :=
  if toks.length < 4 then
    (.ok "Usage: cluster new <node1> ... <nodeN> <name> <value>", s)
  else if (cluster_new_ids rest).isEmpty ||
      1 + (rest.takeWhile pyIsDigit).length ≥ toks.length - 1 then
    (.ok "Usage: cluster new <node1> ... <nodeN> <name> <value>", s)
  else if Tbl.contains s.clusters ((rest.drop (rest.takeWhile pyIsDigit).length).headD "") then
    (.ok "[ERROR] cluster exists", s)
  else if !((cluster_new_ids rest).filter fun n => !Tbl.contains s.nodes n).isEmpty then
    (.ok ("[ERROR] nodes " ++
      intListRepr ((cluster_new_ids rest).filter fun n => !Tbl.contains s.nodes n) ++
      " not found"), s)
  else
    (.ok ("Cluster \x27" ++ ((rest.drop (rest.takeWhile pyIsDigit).length).headD "") ++
        "\x27 added."),
      { s with clusters := (Tbl.insert s.clusters
          ((rest.drop (rest.takeWhile pyIsDigit).length).headD "")
          ⟨cluster_new_ids rest,
            String.intercalate " " (rest.drop ((rest.takeWhile pyIsDigit).length + 1))⟩) })

def cluster_rmv (s : Store) (toks rest : List String) : Except PyErr String × Store :=
  if toks.length ≠ 2 then (.ok "Usage: cluster rmv <name>", s)
  else if (rest.headD "") = DEFAULT_CLUSTER || (rest.headD "") = s.currentView then
    (.ok "[ERROR] cannot remove default or active cluster", s)
  else if !Tbl.contains s.clusters (rest.headD "") then (.ok "[ERROR] cluster not found", s)
  else
    (.ok ("Cluster \x27" ++ (rest.headD "") ++ "\x27 removed."),
      { s with clusters := Tbl.erase s.clusters (rest.headD "") })

def cluster_get (s : Store) (toks rest : List String) : String :=
  if toks.length ≠ 2 then "Usage: cluster get <name>"
  else
    match Tbl.find? s.clusters (rest.headD "") with
    | none => "[ERROR] cluster not found"
    | some d => "value=" ++ d.value ++ " nodes=" ++ intListRepr (sortInts d.nodes)

def cluster_iso (s : Store) (toks rest : List String) : Except PyErr String × Store :=
  if toks.length = 1 then
    (.ok "Isolation cleared.", { s with currentView := DEFAULT_CLUSTER })
  else if !Tbl.contains s.clusters (rest.headD "") then (.ok "[ERROR] cluster not found", s)
  else
    (.ok ("Cluster \x27" ++ (rest.headD "") ++ "\x27 isolated."),
      { s with currentView := rest.headD "" })

def clusterCmd (fs : FS) (s : Store) (toks : List String) : Except PyErr String × Store :=
  match toks with
  | [] => (.ok "[ERROR] cluster sub-command missing", s)
  | t0 :: rest =>
    if pyLower t0 = "open" then
      if toks.length ≠ 3 then (.ok "Usage: cluster open <csv-file> <clusterName>", s)
      else import_csv_matrix fs s (rest.headD "") ((rest.drop 1).headD "")
    else if pyLower t0 = "list" then (.ok (cluster_list s), s)
    else if pyLower t0 = "new" then cluster_new s toks rest
    else if pyLower t0 = "rmv" || pyLower t0 = "rmb" then cluster_rmv s toks rest
    else if pyLower t0 = "get" then (.ok (cluster_get s toks rest), s)
    else if pyLower t0 = "iso" then cluster_iso s toks rest
    else (.ok "[ERROR] unknown cluster sub-command", s)

/-! ### Cluster-scoped `node` commands (`_cluster_node`) -/

/-- The read-only cluster-scoped `node list` branch. -/
def cn_list (s : Store) (cd : ClusterData) (toks : List String) : String :=
  if toks.length ≠ 1 then "Usage: <cluster> node list"
  else if cd.nodes.isEmpty then "[INFO] no nodes in cluster"
  else
    String.intercalate "\n" ((sortInts cd.nodes).map fun nid =>
      intToStr nid ++ ": " ++ (Tbl.find? s.nodes nid).getD "")

def cn_nbr (s : Store) (cname : String) (cd : ClusterData) (toks rest : List String) :
    Except PyErr String :=
  if toks.length ≠ 2 then .ok "Usage: <cluster> node nbr <id>"
  else
    match pyInt (rest.headD "") with
    | none => .error .valueError
    | some nid =>
      if !cd.nodes.contains nid then .ok "[ERROR] node not in cluster"
      else
        let nb := neighbours_cluster s cname nid
        if nb.isEmpty then .ok "[INFO] no neighbour"
        else .ok (String.intercalate ", " ((sortInts nb).map intToStr))

def cn_n (s : Store) (cname : String) (cd : ClusterData) (toks rest : List String) :
    Except PyErr String :=
  if toks.length ≠ 2 then .ok "Usage: <cluster> node n <id>"
  else
    match pyInt (rest.headD "") with
    | none => .error .valueError
    | some nid =>
      if !cd.nodes.contains nid then .ok "[ERROR] node not in cluster"
      else .ok (strOfNat (neighbours_cluster s cname nid).length)

def cn_allp (s : Store) (cname : String) (cd : ClusterData) (toks rest : List String) :
    Except PyErr String :=
  if toks.length ≠ 3 then .ok "Usage: <cluster> node allp <src> <dst>"
  else
    match pyInt (rest.headD ""), pyInt ((rest.drop 1).headD "") with
    | none, _ => .error .valueError
    | _, none => .error .valueError
    | some src, some dst =>
      if !cd.nodes.contains src || !cd.nodes.contains dst then
        .ok "[ERROR] nodes not in cluster"
      else
        let paths := cluster_allp_list s cname src dst
        if paths.isEmpty then .ok "[INFO] no path"
        else .ok (String.intercalate "\n" (paths.map pathStr))

def cn_p (s : Store) (cname : String) (cd : ClusterData) (toks rest : List String) :
    Except PyErr String :=
  if toks.length ≠ 3 then .ok "Usage: <cluster> node p <src> <dst>"
  else
    match pyInt (rest.headD ""), pyInt ((rest.drop 1).headD "") with
    | none, _ => .error .valueError
    | _, none => .error .valueError
    | some src, some dst =>
      if !cd.nodes.contains src || !cd.nodes.contains dst then
        .ok "[ERROR] nodes not in cluster"
      else
        let path := shortest_path src dst (clusterEdgeKeys s cname) cd.nodes
        if path.isEmpty then .ok "[INFO] no path"
        else .ok (pathStr path)

/-- The cluster-scoped `node new|rmv|get <id>` tail (shared `int()` parse). -/
def cn_mod (s : Store) (cname : String) (cd : ClusterData) (t0 : String)
    (rest : List String) : Except PyErr String × Store :=
  match pyInt (rest.headD "") with
  | none => (.error .valueError, s)
  | some nid =>
    if pyLower t0 = "new" || pyLower t0 = "add" then
      if cname = DEFAULT_CLUSTER then (.ok "[ERROR] cannot modify default cluster", s)
      else if !Tbl.contains s.nodes nid then (.ok "[ERROR] node not found globally", s)
      else if cd.nodes.contains nid then (.ok "[INFO] node already in cluster", s)
      else
        (.ok ("Node " ++ intToStr nid ++ " added to cluster \x27" ++ cname ++ "\x27."),
          { s with clusters :=
              (Tbl.insert s.clusters cname ⟨SetL.add cd.nodes nid, cd.value⟩) })
    else if pyLower t0 = "rmv" || pyLower t0 = "rmb" || pyLower t0 = "remove" then
      if cname = DEFAULT_CLUSTER then (.ok "[ERROR] cannot modify default cluster", s)
      else if !cd.nodes.contains nid then (.ok "[ERROR] node not in cluster", s)
      else
        (.ok ("Node " ++ intToStr nid ++ " removed from cluster \x27" ++ cname ++ "\x27."),
          { s with clusters :=
              (Tbl.insert s.clusters cname ⟨SetL.discard cd.nodes nid, cd.value⟩) })
    else if pyLower t0 = "get" then
      if !cd.nodes.contains nid then (.ok "[ERROR] node not in cluster", s)
      else
        match Tbl.find? s.nodes nid with
        | some v => (.ok v, s)
        | none => (.error .keyError, s)
    else (.ok "[ERROR] unknown sub-command", s)

def clusterNodeCmd (s : Store) (cname : String) (toks : List String) :
    Except PyErr String × Store :=
  match Tbl.find? s.clusters cname with
  | none => (.ok "[ERROR] cluster not found", s)
  | some cd =>
    match toks with
    | [] => (.ok "Usage: <cluster> node list|new|rmv|get|nbr|n|allp|p ...", s)
    | t0 :: rest =>
      if pyLower t0 = "list" then (.ok (cn_list s cd toks), s)
      else if pyLower t0 = "nbr" || pyLower t0 = "neigh" || pyLower t0 = "neighbors" then
        (cn_nbr s cname cd toks rest, s)
      else if pyLower t0 = "n" then (cn_n s cname cd toks rest, s)
      else if pyLower t0 = "allp" then (cn_allp s cname cd toks rest, s)
      else if pyLower t0 = "p" then (cn_p s cname cd toks rest, s)
      else if toks.length ≠ 2 then (.ok "Usage: <cluster> node new|rmv|get <id>", s)
      else cn_mod s cname cd t0 rest

/-! ### Cluster-scoped `edge` commands (`_cluster_edge`) -/

/-- The read-only cluster-scoped `edge list` branch. -/
def ce_list (s : Store) (cname : String) : String :=
  fmt_edges (s.edges.filter fun kv => edge_in_cluster s cname kv.1)

def ce_new (s : Store) (cname : String) (cd : ClusterData) (toks rest : List String) :
    Except PyErr String × Store :=
  if toks.length < 5 || !((rest.take 3).all pyIsDigit) then
    (.ok "Usage: <cluster> edge new <id1> <id2> <eid> <value>", s)
  else
    if !cd.nodes.contains (pyIntD (rest.headD "")) ||
        !cd.nodes.contains (pyIntD ((rest.drop 1).headD "")) then
      (.ok "[ERROR] nodes not inside cluster", s)
    else
      if Tbl.contains s.edges (make_edge_name (pyIntD (rest.headD ""))
          (pyIntD ((rest.drop 1).headD "")) (pyIntD ((rest.drop 2).headD ""))) then
        (.ok "[ERROR] edge exists", s)
      else
        (.ok ("Edge " ++ make_edge_name (pyIntD (rest.headD ""))
            (pyIntD ((rest.drop 1).headD "")) (pyIntD ((rest.drop 2).headD "")) ++
            " added (cluster \x27" ++ cname ++ "\x27)."),
          { s with edges :=
              (Tbl.insert s.edges (make_edge_name (pyIntD (rest.headD ""))
                (pyIntD ((rest.drop 1).headD "")) (pyIntD ((rest.drop 2).headD "")))
                (String.intercalate " " (rest.drop 3))) })

def ce_rmv (s : Store) (cname : String) (rest : List String) :
    Except PyErr String × Store :=
  if (parse_edge_id rest).2 ≠ "" then (.ok (parse_edge_id rest).2, s)
  else if !Tbl.contains s.edges (parse_edge_id rest).1 then
    (.ok "[ERROR] edge not found", s)
  else if !edge_in_cluster s cname (parse_edge_id rest).1 then
    (.ok "[ERROR] edge not inside cluster", s)
  else
    (.ok ("Edge " ++ (parse_edge_id rest).1 ++ " removed."),
      { s with edges := Tbl.erase s.edges (parse_edge_id rest).1 })

def ce_get (s : Store) (cname : String) (cd : ClusterData) (toks rest : List String) :
    Except PyErr String :=
  if toks.length = 3 && rest.all pyIsDigit then
    if !cd.nodes.contains (pyIntD (rest.headD "")) ||
        !cd.nodes.contains (pyIntD ((rest.drop 1).headD "")) then
      .ok "[ERROR] nodes not inside cluster"
    else
      let eds := s.edges.filter fun kv =>
        let ab := split_edge_name kv.1
        pairEq ab.1 ab.2 (pyIntD (rest.headD "")) (pyIntD ((rest.drop 1).headD ""))
      let eds2 := eds.filter fun kv => edge_in_cluster s cname kv.1
      if eds2.isEmpty then .ok "[INFO] no edge" else .ok (dictRepr eds2)
  else
    let pe := parse_edge_id (rest.take 1)
    if pe.2 ≠ "" then .ok pe.2
    else if !Tbl.contains s.edges pe.1 then .ok "[ERROR] edge not found"
    else if !edge_in_cluster s cname pe.1 then .ok "[ERROR] edge not inside cluster"
    else
      match Tbl.find? s.edges pe.1 with
      | some v => .ok v
      | none => .error .keyError

def clusterEdgeCmd (s : Store) (cname : String) (toks : List String) :
    Except PyErr String × Store :=
  match Tbl.find? s.clusters cname with
  | none => (.ok "[ERROR] cluster not found", s)
  | some cd =>
    match toks with
    | [] => (.ok "Usage: <cluster> edge list|new|rmv|get ...", s)
    | t0 :: rest =>
      if pyLower t0 = "list" then
        if toks.length ≠ 1 then (.ok "Usage: <cluster> edge list", s)
        else (.ok (ce_list s cname), s)
      else if pyLower t0 = "new" then ce_new s cname cd toks rest
      else if pyLower t0 = "rmv" || pyLower t0 = "rmb" then ce_rmv s cname rest
      else if pyLower t0 = "get" then (ce_get s cname cd toks rest, s)
      else (.ok "[ERROR] unknown sub-command", s)

/-! ### Top-level dispatcher (`handle`) -/

def HELP_TEXT : String :=
  "Quick reference: node list|new|get|up|rmv|nbr|n|allp|p, " ++
  "edge list|new|get|up|rmv, cluster list|new|get|rmv|iso|open, " ++
  "<cluster> node ... / <cluster> edge ..., help, exit/quit"

/-- The `node`/`edge`/`cluster` category dispatch applied when the command is
not a cluster-scoped form. -/
def globalCmd (fs : FS) (s : Store) (t0 : String) (rest : List String) :
    Except PyErr String × Store :=
  if pyLower t0 = "n" || pyLower t0 = "node" then nodeCmd s rest
  else if pyLower t0 = "e" || pyLower t0 = "edge" then edgeCmd s rest
  else if pyLower t0 = "c" || pyLower t0 = "cluster" then clusterCmd fs s rest
  else (.ok "[ERROR] unknown command category", s)

def handle (fs : FS) (s : Store) (cmd : String) : Except PyErr String × Store :=
  match pySplit cmd with
  | [] => (.ok "[ERROR] empty command", s)
  | t0 :: rest =>
    if pyLower t0 = "help" || pyLower t0 = "h" || pyLower t0 = "?" then (.ok HELP_TEXT, s)
    else
      match rest with
      | t1 :: _ :: _ =>
        if pyLower t1 = "node" then clusterNodeCmd s t0 (rest.drop 1)
        else if pyLower t1 = "edge" then clusterEdgeCmd s t0 (rest.drop 1)
        else globalCmd fs s t0 rest
      | _ => globalCmd fs s t0 rest

/-- The constructor state: empty registries, the default cluster synced. -/
def initStore : Store :=
  sync_default { nodes := [], edges := [], clusters := [], currentView := DEFAULT_CLUSTER }

/-- States reachable from the fresh engine by any command sequence, under any
file-system contents. -/
inductive Reachable : Store → Prop
  | init : Reachable initStore
  | step (fs : FS) (cmd : String) (s : Store) :
      Reachable s → Reachable (handle fs s cmd).2

/-- An empty file system: every open fails. -/
def emptyFS : FS := fun _ => none

/-! ### Claim C1 -/

/-- C1: the spec says `handle` never raises and returns every failure as an
`[ERROR]`/`[INFO]` string; the code instead calls `int()` unguarded, so a
non-numeric node id in `node new` or `node get`, and a non-integer header
cell during `cluster open`, each raise `ValueError` straight out of the
engine. Evaluations of the embedded engine at those failing inputs. -/
theorem C1_handle_raises_on_malformed_int :
    (handle emptyFS initStore "node new x v").1 = Except.error PyErr.valueError ∧
    (handle emptyFS initStore "node get x").1 = Except.error PyErr.valueError ∧
    (handle (fun _ => some [["", "a"], ["1", ""]]) initStore "cluster open m.csv c").1 =
      Except.error PyErr.valueError := by
  refine ⟨rfl, rfl, rfl⟩

/-! ### Claim C5 -/

def c5_store : Store :=
  (handle emptyFS (handle emptyFS initStore "node new 1 a").2 "node new 2 b").2

/-- C5: the spec says `updateEdge` addressed by a canonical identifier fails
with `NotFound` and never creates an entry; the code's name-form `edge up`
never checks membership and upserts: with nodes 1 and 2 registered and no
edges at all, `edge up 1_2_1 hello` reports success and creates the edge. -/
theorem C5_edge_up_creates_missing_edge :
    Tbl.contains c5_store.edges "1_2_1" = false ∧
    (handle emptyFS c5_store "edge up 1_2_1 hello").1 = Except.ok "Edge 1_2_1 updated." ∧
    Tbl.find? (handle emptyFS c5_store "edge up 1_2_1 hello").2.edges "1_2_1" =
      some "hello" := by
  refine ⟨rfl, rfl, rfl⟩

/-! ### Claim C6 -/

def c6_store : Store :=
  ["node new 1 a", "node new 2 b", "node new 3 c",
   "edge new 1 2 1 x", "edge new 1 3 1 y", "edge new 3 2 1 z",
   "cluster new 1 2 3 c v"].foldl (fun s c => (handle emptyFS s c).2) initStore

/-- C6 counterexample: in the store with nodes `{1,2,3}`, edges `1_2_1`,
`1_3_1`, `3_2_1` and cluster `c = {1,2,3}`, the cluster-scoped
`c node allp 1 2` returns the two simple paths in DFS discovery order with
element counts `[5, 3]` — not sorted by path length ascending. -/
theorem C6_counterexample :
    (cluster_allp_list c6_store "c" 1 2).map List.length = [5, 3] ∧
    ¬ (cluster_allp_list c6_store "c" 1 2).Pairwise (fun p q => p.length ≤ q.length) := by
  constructor
  · rfl
  · intro h
    have h2 := List.pairwise_map.mpr h
    rw [show (cluster_allp_list c6_store "c" 1 2).map List.length = [5, 3] from rfl] at h2
    have := (List.pairwise_cons.mp h2).1 3 (List.mem_cons_self _ _)
    omega

/-- C6 amended (positive part): the collection returned by the global
`node allp` form is sorted by path length, ascending, for every store and
query. -/
theorem C6_global_allp_sorted (s : Store) (src dst : Int) :
    (node_allp_list s src dst).Pairwise fun p q => p.length ≤ q.length :=
  sorted_sortByLen _

/-! ### Claim C2 (counterexample part) -/

def c2_fs : FS := fun p => if p = "f.csv" then some [["", "1", "2"], ["1", "", "5"]] else none

def c2_store : Store :=
  (handle emptyFS (handle emptyFS initStore "node new 9 z").2 "cluster new 9 c v").2

/-- C2 counterexample: with cluster `c` already taken and nodes `1`, `2`
unregistered, `cluster open f.csv c` on the matrix with headers `1, 2` fails
with the `AlreadyExists` error string yet registers both header node ids —
the store is not left as it was. -/
theorem C2_counterexample :
    (handle c2_fs c2_store "cluster open f.csv c").1 =
      Except.ok "[ERROR] cluster already exists" ∧
    Tbl.contains c2_store.nodes 1 = false ∧
    Tbl.contains (handle c2_fs c2_store "cluster open f.csv c").2.nodes 1 = true ∧
    Tbl.contains (handle c2_fs c2_store "cluster open f.csv c").2.nodes 2 = true := by
  refine ⟨rfl, rfl, rfl, rfl⟩

/-! ### Lemmas about registration / insertion used for C2, C9, C3, C10 -/

theorem Tbl.contains_insert_iff [DecidableEq α] (l : List (α × β)) (k a : α) (v : β) :
    Tbl.contains (Tbl.insert l k v) a = true ↔ Tbl.contains l a = true ∨ a = k := by
  by_cases hak : a = k
  · subst hak
    simp [Tbl.contains, Tbl.find?_insert_self]
  · rw [Tbl.contains, Tbl.find?_insert_ne l k a v hak]
    simp [Tbl.contains, hak]

theorem mem_foldl_SetL_add (l : List Int) : ∀ (acc : List Int) (x : Int),
    x ∈ l.foldl SetL.add acc ↔ x ∈ acc ∨ x ∈ l := by
  induction l with
  | nil => intro acc x; simp
  | cons y t ih =>
    intro acc x
    rw [List.foldl_cons, ih]
    rw [SetL.mem_add]
    constructor
    · rintro ((h | h) | h)
      · exact Or.inl h
      · exact Or.inr (h ▸ List.mem_cons_self _ _)
      · exact Or.inr (List.mem_cons_of_mem _ h)
    · rintro (h | h)
      · exact Or.inl (Or.inl h)
      · rcases List.mem_cons.mp h with h1 | h1
        · exact Or.inl (Or.inr h1)
        · exact Or.inr h1

/-- The registration loop of the importer only extends the node table. -/
theorem regNodes_find_preserved (ids : List Int) :
    ∀ (p : List (Int × String) × Nat) (x : Int) (v : String),
      Tbl.find? p.1 x = some v → Tbl.find? (ids.foldl
        (fun p nid => if Tbl.contains p.1 nid then p
          else (Tbl.insert p.1 nid (intToStr nid), p.2 + 1)) p).1 x = some v := by
  induction ids with
  | nil => intro p x v h; exact h
  | cons nid t ih =>
    intro p x v h
    rw [List.foldl_cons]
    by_cases hc : Tbl.contains p.1 nid
    · rw [if_pos hc]; exact ih p x v h
    · rw [if_neg hc]
      refine ih _ x v ?_
      show Tbl.find? (Tbl.insert p.1 nid (intToStr nid)) x = some v
      by_cases hx : x = nid
      · subst hx
        exact absurd (by simp [Tbl.contains, h]) hc
      · rw [Tbl.find?_insert_ne _ _ _ _ hx]; exact h

/-- The registration loop registers exactly the listed ids. -/
theorem regNodes_contains (ids : List Int) :
    ∀ (p : List (Int × String) × Nat) (x : Int),
      Tbl.contains (ids.foldl
        (fun p nid => if Tbl.contains p.1 nid then p
          else (Tbl.insert p.1 nid (intToStr nid), p.2 + 1)) p).1 x = true ↔
      Tbl.contains p.1 x = true ∨ x ∈ ids := by
  induction ids with
  | nil => intro p x; simp
  | cons nid t ih =>
    intro p x
    rw [List.foldl_cons]
    by_cases hc : Tbl.contains p.1 nid
    · rw [if_pos hc, ih]
      constructor
      · rintro (h | h)
        · exact Or.inl h
        · exact Or.inr (List.mem_cons_of_mem _ h)
      · rintro (h | h)
        · exact Or.inl h
        · rcases List.mem_cons.mp h with h1 | h1
          · exact Or.inl (h1 ▸ hc)
          · exact Or.inr h1
    · rw [if_neg hc, ih]
      show Tbl.contains (Tbl.insert p.1 nid (intToStr nid)) x = true ∨ x ∈ t ↔ _
      rw [Tbl.contains_insert_iff]
      constructor
      · rintro ((h | h) | h)
        · exact Or.inl h
        · exact Or.inr (h ▸ List.mem_cons_self _ _)
        · exact Or.inr (List.mem_cons_of_mem _ h)
      · rintro (h | h)
        · exact Or.inl (Or.inl h)
        · rcases List.mem_cons.mp h with h1 | h1
          · exact Or.inl (Or.inr h1)
          · exact Or.inr h1

theorem not_mem_keys_erase [DecidableEq α] (l : List (α × β)) (a : α) :
    a ∉ Tbl.keys (Tbl.erase l a) := by
  intro h
  have := (Tbl.contains_iff_mem_keys (Tbl.erase l a) a).mpr h
  rw [Tbl.contains, Tbl.find?_erase_self] at this
  simp at this

/-! ### Claim C2 (amended, general form) -/

/-- C2 amended: when the target cluster name is taken, the importer returns
the `AlreadyExists` error string and leaves the edge table, the cluster
table, and the isolation view unchanged — but it registers every header node
id not yet present (the partial write exhibited by the counterexample), and
the node values already registered are untouched. -/
theorem C2_import_already_exists (fs : FS) (s : Store) (path cname : String)
    (r0 : List String) (rtl : List (List String)) (colIds rowIds : List Int)
    (hfs : fs path = some (r0 :: rtl)) (hlen : 2 ≤ r0.length)
    (hcol : colInts (r0.drop 1) = some colIds)
    (hrow : rowHeadInts rtl = Except.ok rowIds)
    (hclus : Tbl.contains s.clusters cname = true) :
    (import_csv_matrix fs s path cname).1 = Except.ok "[ERROR] cluster already exists" ∧
    (import_csv_matrix fs s path cname).2.edges = s.edges ∧
    (import_csv_matrix fs s path cname).2.clusters = s.clusters ∧
    (import_csv_matrix fs s path cname).2.currentView = s.currentView ∧
    (∀ x v, Tbl.find? s.nodes x = some v →
      Tbl.find? (import_csv_matrix fs s path cname).2.nodes x = some v) ∧
    (∀ x, Tbl.contains (import_csv_matrix fs s path cname).2.nodes x = true ↔
      Tbl.contains s.nodes x = true ∨ x ∈ colIds ∨ x ∈ rowIds) := by
  have hred : import_csv_matrix fs s path cname =
      (Except.ok "[ERROR] cluster already exists",
        { s with nodes := (regNodes s.nodes ((colIds ++ rowIds).foldl SetL.add [])).1 }) := by
    rw [import_csv_matrix, hfs]
    have hnlt : ¬ r0.length < 2 := by omega
    dsimp only
    rw [if_neg hnlt, hcol]
    dsimp only
    rw [hrow]
    dsimp only
    rw [if_pos hclus]
  rw [hred]
  refine ⟨rfl, rfl, rfl, rfl, ?_, ?_⟩
  · intro x v h
    exact regNodes_find_preserved _ _ x v h
  · intro x
    show Tbl.contains (((colIds ++ rowIds).foldl SetL.add []).foldl _ (s.nodes, 0)).1 x =
      true ↔ _
    rw [regNodes_contains]
    rw [mem_foldl_SetL_add]
    simp [List.mem_append, or_assoc]

/-- Witness for C2 amended at a concrete taken-cluster import. -/
theorem C2_import_already_exists_witness :
    c2_fs "f.csv" = some ([["", "1", "2"], ["1", "", "5"]]) ∧
    Tbl.contains (import_csv_matrix c2_fs c2_store "f.csv" "c").2.nodes 2 = true := by
  refine ⟨rfl, ?_⟩
  have h := C2_import_already_exists c2_fs c2_store "f.csv" "c"
    ["", "1", "2"] [["1", "", "5"]] [1, 2] [1]
    rfl (by decide) rfl rfl (by decide)
  exact (h.2.2.2.2.2 2).mpr (Or.inr (Or.inl (by decide)))

/-! ### Claim C9 -/

/-- C9: a well-formed import that succeeds creates the new cluster with
membership exactly the set of column-header node ids (not the row/column
union), while the row-header ids still get globally registered. -/
theorem C9_import_cluster_membership (fs : FS) (s : Store) (path cname : String)
    (r0 : List String) (rtl : List (List String)) (colIds rowIds : List Int)
    (hfs : fs path = some (r0 :: rtl)) (hlen : 2 ≤ r0.length)
    (hcol : colInts (r0.drop 1) = some colIds)
    (hrow : rowHeadInts rtl = Except.ok rowIds)
    (hclus : Tbl.contains s.clusters cname = false)
    (hdef : cname ≠ DEFAULT_CLUSTER)
    (hcells : (importCells colIds (rowIds.zip rtl) s.edges 0).1 = none) :
    (∃ m, (import_csv_matrix fs s path cname).1 = Except.ok m) ∧
    Tbl.find? (import_csv_matrix fs s path cname).2.clusters cname =
      some ⟨colIds.foldl SetL.add [], "CSV:" ++ path⟩ ∧
    (∀ x : Int, x ∈ colIds.foldl SetL.add [] ↔ x ∈ colIds) ∧
    (∀ x ∈ rowIds, Tbl.contains (import_csv_matrix fs s path cname).2.nodes x = true) := by
  obtain ⟨edges1, cnt, himp⟩ : ∃ e c, importCells colIds (rowIds.zip rtl) s.edges 0 =
      (none, e, c) := by
    match himp2 : importCells colIds (rowIds.zip rtl) s.edges 0 with
    | (none, e, c) => exact ⟨e, c, rfl⟩
    | (some err, e, c) => rw [himp2] at hcells; simp at hcells
  have hred : import_csv_matrix fs s path cname =
      (Except.ok ("Imported " ++
          strOfNat (regNodes s.nodes ((colIds ++ rowIds).foldl SetL.add [])).2 ++
          " node(s) and " ++ strOfNat cnt ++ " edge(s) into cluster \x27" ++ cname ++
          "\x27."),
        sync_default
          { s with
            nodes := (regNodes s.nodes ((colIds ++ rowIds).foldl SetL.add [])).1,
            edges := edges1,
            clusters := Tbl.insert s.clusters cname
              ⟨colIds.foldl SetL.add [], "CSV:" ++ path⟩ }) := by
    rw [import_csv_matrix, hfs]
    have hnlt : ¬ r0.length < 2 := by omega
    dsimp only
    rw [if_neg hnlt, hcol]
    dsimp only
    rw [hrow]
    dsimp only
    rw [if_neg (by simp [hclus])]
    rw [himp]
  rw [hred]
  refine ⟨⟨_, rfl⟩, ?_, ?_, ?_⟩
  · show Tbl.find? (Tbl.insert (Tbl.insert s.clusters cname _) DEFAULT_CLUSTER _) cname = _
    rw [Tbl.find?_insert_ne _ _ _ _ hdef, Tbl.find?_insert_self]
  · intro x
    rw [mem_foldl_SetL_add]
    simp
  · intro x hx
    show Tbl.contains (((colIds ++ rowIds).foldl SetL.add []).foldl _ (s.nodes, 0)).1 x = true
    rw [regNodes_contains]
    exact Or.inr ((mem_foldl_SetL_add _ _ _).mpr (Or.inr (List.mem_append.mpr (Or.inr hx))))

def c9_fs : FS := fun p => if p = "m.csv" then some [["", "1", "2"], ["7", "", "5"]] else none

/-- Witness for C9 at a matrix whose row header introduces node 7: the new
cluster is exactly `{1, 2}` while 7 is registered globally. -/
theorem C9_import_cluster_membership_witness :
    Tbl.find? (import_csv_matrix c9_fs initStore "m.csv" "c").2.clusters "c" =
      some ⟨[1, 2], "CSV:" ++ "m.csv"⟩ ∧
    Tbl.contains (import_csv_matrix c9_fs initStore "m.csv" "c").2.nodes 7 = true := by
  have h := C9_import_cluster_membership c9_fs initStore "m.csv" "c"
    ["", "1", "2"] [["7", "", "5"]] [1, 2] [7]
    rfl (by decide) rfl rfl (by decide) (by decide) (by decide)
  exact ⟨h.2.1, h.2.2.2 7 (by decide)⟩

/-! ### Claim C3 -/

/-- C3: after a successful `removeNode(a)` (`a` in the current view), `a` is
gone from the node table, no remaining edge key decodes to an endpoint pair
containing `a`, `a` is in no cluster's membership, and the default cluster's
membership again equals the registered node set. -/
theorem C3_removeNode_cascade (s : Store) (a : Int) (h : a ∈ visible_nodes s) :
    Tbl.contains (removeNode s a).nodes a = false ∧
    (∀ kv ∈ (removeNode s a).edges,
      (split_edge_name kv.1).1 ≠ a ∧ (split_edge_name kv.1).2 ≠ a) ∧
    (∀ cd ∈ (removeNode s a).clusters, a ∉ cd.2.nodes) ∧
    (∃ d, Tbl.find? (removeNode s a).clusters DEFAULT_CLUSTER = some d ∧
      ∀ x, x ∈ d.nodes ↔ Tbl.contains (removeNode s a).nodes x = true) := by
  refine ⟨?_, ?_, ?_, ?_⟩
  · show Tbl.contains (Tbl.erase s.nodes a) a = false
    simp [Tbl.contains, Tbl.find?_erase_self]
  · intro kv hkv
    have hkv2 : kv ∈ s.edges.filter (fun kv =>
        let ab := split_edge_name kv.1
        !(decide (ab.1 = a) || decide (ab.2 = a))) := hkv
    have := (List.mem_filter.mp hkv2).2
    simp only [Bool.not_eq_true', Bool.or_eq_false_iff, decide_eq_false_iff_not] at this
    exact this
  · intro cd hcd
    have hcd2 : cd ∈ Tbl.insert
        (s.clusters.map fun cd => (cd.1, ⟨SetL.discard cd.2.nodes a, cd.2.value⟩))
        DEFAULT_CLUSTER ⟨Tbl.keys (Tbl.erase s.nodes a), "All existing nodes"⟩ := hcd
    rcases Tbl.mem_insert _ _ _ _ hcd2 with h1 | h1
    · obtain ⟨cd0, _, hmap⟩ := List.mem_map.mp h1
      rw [← hmap]
      exact SetL.self_not_mem_discard _ _
    · rw [h1]
      exact not_mem_keys_erase s.nodes a
  · refine ⟨⟨Tbl.keys (Tbl.erase s.nodes a), "All existing nodes"⟩, ?_, ?_⟩
    · exact Tbl.find?_insert_self _ _ _
    · intro x
      exact (Tbl.contains_iff_mem_keys (Tbl.erase s.nodes a) x).symm

def c3_store : Store :=
  ["node new 1 a", "node new 2 b", "edge new 1 2 1 x", "edge new 1 1 4 w",
   "cluster new 1 2 sub v"].foldl (fun s c => (handle emptyFS s c).2) initStore

/-- Witness for C3: removing node 1 from a store where it has edges and a
cluster membership. -/
theorem C3_removeNode_cascade_witness :
    1 ∈ visible_nodes c3_store ∧
    (Tbl.contains (removeNode c3_store 1).nodes 1 = false ∧
    (∀ kv ∈ (removeNode c3_store 1).edges,
      (split_edge_name kv.1).1 ≠ 1 ∧ (split_edge_name kv.1).2 ≠ 1) ∧
    (∀ cd ∈ (removeNode c3_store 1).clusters, (1 : Int) ∉ cd.2.nodes) ∧
    (∃ d, Tbl.find? (removeNode c3_store 1).clusters DEFAULT_CLUSTER = some d ∧
      ∀ x, x ∈ d.nodes ↔ Tbl.contains (removeNode c3_store 1).nodes x = true)) :=
  ⟨by decide, C3_removeNode_cascade c3_store 1 (by decide)⟩

/-! ### Claim C10 -/

/-- C10: when the active view is a non-default cluster, a successful
`node new` registers the node globally, refreshes the default cluster, and
also adds the id to the active cluster's membership, so the node is
immediately visible in the current view. -/
theorem C10_addNode_isolated_view (s : Store) (nid : Int) (val : String) (d : ClusterData)
    (hview : s.currentView ≠ DEFAULT_CLUSTER)
    (hfind : Tbl.find? s.clusters s.currentView = some d)
    (hnew : Tbl.contains s.nodes nid = false) :
    Tbl.find? (addNode s nid val).nodes nid = some val ∧
    (∃ d2, Tbl.find? (addNode s nid val).clusters s.currentView = some d2 ∧
      nid ∈ d2.nodes) ∧
    nid ∈ visible_nodes (addNode s nid val) ∧
    (∃ dd, Tbl.find? (addNode s nid val).clusters DEFAULT_CLUSTER = some dd ∧
      ∀ x, x ∈ dd.nodes ↔ Tbl.contains (addNode s nid val).nodes x = true) := by
  have hred : addNode s nid val =
      { s with
        nodes := Tbl.insert s.nodes nid val,
        clusters := Tbl.insert
          (Tbl.insert s.clusters DEFAULT_CLUSTER
            ⟨Tbl.keys (Tbl.insert s.nodes nid val), "All existing nodes"⟩)
          s.currentView ⟨SetL.add d.nodes nid, d.value⟩ } := by
    rw [addNode]
    rw [if_neg (by simpa [sync_default] using hview)]
    show ({ sync_default { s with nodes := Tbl.insert s.nodes nid val } with
      clusters := clusterAddMember _ _ _ } : Store) = _
    rw [sync_default]
    rw [clusterAddMember]
    rw [show Tbl.find? (Tbl.insert s.clusters DEFAULT_CLUSTER
        ⟨Tbl.keys (Tbl.insert s.nodes nid val), "All existing nodes"⟩) s.currentView =
        some d from by rw [Tbl.find?_insert_ne _ _ _ _ hview]; exact hfind]
  rw [hred]
  refine ⟨Tbl.find?_insert_self _ _ _, ?_, ?_, ?_⟩
  · exact ⟨_, Tbl.find?_insert_self _ _ _, SetL.self_mem_add _ _⟩
  · show nid ∈ visible_nodes_of _ s.currentView
    rw [visible_nodes_of, if_neg hview]
    rw [Tbl.find?_insert_self]
    exact SetL.self_mem_add _ _
  · refine ⟨⟨Tbl.keys (Tbl.insert s.nodes nid val), "All existing nodes"⟩, ?_, ?_⟩
    · rw [Tbl.find?_insert_ne _ _ _ _ (fun hh => hview hh.symm), Tbl.find?_insert_self]
    · intro x
      exact (Tbl.contains_iff_mem_keys (Tbl.insert s.nodes nid val) x).symm

/-! ### Claim C4: correctness of the BFS shortest path

The graph-theoretic layer: the adjacency relation of the projection the
source builds, node paths, and their correspondence to `buildGraph`. -/

/-- Adjacency in the undirected projection restricted to `edges` and
`nodes`: some edge of the pool decodes to endpoints inside `nodes` matching
`{a, b}`. -/
def ProjAdj (edges : List String) (nodes : List Int) (a b : Int) : Prop :=
  ∃ e ∈ edges, (split_edge_name e).1 ∈ nodes ∧ (split_edge_name e).2 ∈ nodes ∧
    pairEq (split_edge_name e).1 (split_edge_name e).2 a b = true

/-- Adjacency in a built adjacency map. -/
def GAdj (g : Graph) (a b : Int) : Prop := b ∈ nbrs g a

/-- A valid node path from `src` ending at `v` in the adjacency map. -/
def PathTo (g : Graph) (src : Int) (p : List Int) (v : Int) : Prop :=
  p.head? = some src ∧ p.getLast? = some v ∧ p.Chain' (GAdj g)

/-- A valid node path from `src` to `dst` in the projection. -/
def IsPath (edges : List String) (nodes : List Int) (p : List Int) (src dst : Int) : Prop :=
  p.head? = some src ∧ p.getLast? = some dst ∧ p.Chain' (ProjAdj edges nodes)

theorem nbrs_adjAdd (g : Graph) (p q x y : Int) :
    y ∈ nbrs (adjAdd g p q) x ↔ y ∈ nbrs g x ∨ (x = p ∧ y = q) := by
  rw [adjAdd]
  by_cases hx : x = p
  · subst hx
    rw [nbrs, Tbl.find?_insert_self]
    show y ∈ SetL.add (nbrs g x) q ↔ _
    rw [SetL.mem_add]
    simp
  · rw [nbrs, Tbl.find?_insert_ne _ _ _ _ hx]
    simp [nbrs, hx]

theorem contains_adjAdd (g : Graph) (p q x : Int) :
    Tbl.contains (adjAdd g p q) x = true ↔ Tbl.contains g x = true ∨ x = p := by
  rw [adjAdd, Tbl.contains_insert_iff]

theorem nbrs_buildGraph_aux (edges : List String) (nodes : List Int) :
    ∀ (g0 : Graph) (x y : Int),
    y ∈ nbrs (edges.foldl (fun g e =>
      let ab := split_edge_name e
      if nodes.contains ab.1 && nodes.contains ab.2 then
        adjAdd (adjAdd g ab.1 ab.2) ab.2 ab.1
      else g) g0) x ↔
    y ∈ nbrs g0 x ∨ ProjAdj edges nodes x y := by
  induction edges with
  | nil => intro g0 x y; simp [ProjAdj]
  | cons e t ih =>
    intro g0 x y
    rw [List.foldl_cons, ih]
    constructor
    · rintro (h | h)
      · by_cases hc : (nodes.contains (split_edge_name e).1 &&
            nodes.contains (split_edge_name e).2) = true
        · rw [if_pos hc] at h
          rw [nbrs_adjAdd, nbrs_adjAdd] at h
          rcases h with (h | h) | h
          · exact Or.inl h
          · refine Or.inr ⟨e, List.mem_cons_self _ _, ?_, ?_, ?_⟩
            · simpa using (Bool.and_eq_true _ _ |>.mp hc).1
            · simpa using (Bool.and_eq_true _ _ |>.mp hc).2
            · simp [pairEq, h.1, h.2]
          · refine Or.inr ⟨e, List.mem_cons_self _ _, ?_, ?_, ?_⟩
            · simpa using (Bool.and_eq_true _ _ |>.mp hc).1
            · simpa using (Bool.and_eq_true _ _ |>.mp hc).2
            · simp [pairEq, h.1, h.2]
        · rw [if_neg hc] at h
          exact Or.inl h
      · obtain ⟨e', he', h1, h2, h3⟩ := h
        exact Or.inr ⟨e', List.mem_cons_of_mem _ he', h1, h2, h3⟩
    · rintro (h | h)
      · by_cases hc : (nodes.contains (split_edge_name e).1 &&
            nodes.contains (split_edge_name e).2) = true
        · rw [if_pos hc, nbrs_adjAdd, nbrs_adjAdd]
          exact Or.inl (Or.inl (Or.inl h))
        · rw [if_neg hc]; exact Or.inl h
      · obtain ⟨e', he', h1, h2, h3⟩ := h
        rcases List.mem_cons.mp he' with he2 | he2
        · subst he2
          have hc : (nodes.contains (split_edge_name e').1 &&
              nodes.contains (split_edge_name e').2) = true := by
            simp only [Bool.and_eq_true]
            constructor <;> simp [List.elem_iff] <;> [exact h1; exact h2]
          rw [if_pos hc, nbrs_adjAdd, nbrs_adjAdd]
          rcases Bool.or_eq_true _ _ |>.mp h3 with h4 | h4
          · simp only [Bool.and_eq_true, beq_iff_eq] at h4
            exact Or.inl (Or.inl (Or.inr ⟨h4.1.symm, h4.2.symm⟩))
          · simp only [Bool.and_eq_true, beq_iff_eq] at h4
            exact Or.inl (Or.inr ⟨h4.2.symm, h4.1.symm⟩)
        · exact Or.inr ⟨e', he2, h1, h2, h3⟩

/-- `buildGraph` realises exactly the undirected projection. -/
theorem gadj_iff (edges : List String) (nodes : List Int) (x y : Int) :
    GAdj (buildGraph edges nodes) x y ↔ ProjAdj edges nodes x y := by
  rw [GAdj, buildGraph, nbrs_buildGraph_aux]
  simp [nbrs, Tbl.find?]

/-- Every neighbour recorded in a built graph is itself a key. -/
theorem buildGraph_closed (edges : List String) (nodes : List Int) :
    ∀ x y, y ∈ nbrs (buildGraph edges nodes) x →
      Tbl.contains (buildGraph edges nodes) y = true := by
  rw [buildGraph]
  have main : ∀ (l : List String) (g0 : Graph),
      (∀ x y, y ∈ nbrs g0 x → Tbl.contains g0 y = true) →
      ∀ x y, y ∈ nbrs (l.foldl (fun g e =>
        let ab := split_edge_name e
        if nodes.contains ab.1 && nodes.contains ab.2 then
          adjAdd (adjAdd g ab.1 ab.2) ab.2 ab.1
        else g) g0) x →
      Tbl.contains (l.foldl (fun g e =>
        let ab := split_edge_name e
        if nodes.contains ab.1 && nodes.contains ab.2 then
          adjAdd (adjAdd g ab.1 ab.2) ab.2 ab.1
        else g) g0) y = true := by
    intro l
    induction l with
    | nil => intro g0 h x y hy; exact h x y hy
    | cons e t ih =>
      intro g0 h x y
      rw [List.foldl_cons]
      by_cases hc : (nodes.contains (split_edge_name e).1 &&
          nodes.contains (split_edge_name e).2) = true
      · rw [if_pos hc]
        refine ih _ ?_ x y
        intro x' y' hy'
        rw [nbrs_adjAdd, nbrs_adjAdd] at hy'
        rw [contains_adjAdd, contains_adjAdd]
        rcases hy' with (h1 | h1) | h1
        · exact Or.inl (Or.inl (h x' y' h1))
        · exact Or.inr h1.2
        · exact Or.inl (Or.inr h1.2)
      · rw [if_neg hc]
        exact ih g0 h x y
  intro x y hy
  refine main edges [] ?_ x y hy
  intro x' y' hy'
  simp [nbrs, Tbl.find?] at hy'

theorem setL_add_nodup (l : List Int) (x : Int) (h : l.Nodup) : (SetL.add l x).Nodup := by
  rw [SetL.add]
  by_cases hx : x ∈ l
  · rw [if_pos hx]; exact h
  · rw [if_neg hx]
    refine List.Nodup.append h (List.nodup_singleton _) ?_
    intro a ha hax
    rw [List.mem_singleton] at hax
    exact hx (hax ▸ ha)

theorem nbrs_adjAdd_nodup (g : Graph) (p q : Int) (h : ∀ x, (nbrs g x).Nodup) :
    ∀ x, (nbrs (adjAdd g p q) x).Nodup := by
  intro x
  rw [adjAdd]
  by_cases hx : x = p
  · subst hx
    rw [nbrs, Tbl.find?_insert_self]
    exact setL_add_nodup _ _ (h x)
  · rw [nbrs, Tbl.find?_insert_ne _ _ _ _ hx]
    exact h x

/-- Neighbour lists of a built graph are duplicate-free. -/
theorem buildGraph_nbrs_nodup (edges : List String) (nodes : List Int) :
    ∀ x, (nbrs (buildGraph edges nodes) x).Nodup := by
  rw [buildGraph]
  have main : ∀ (l : List String) (g0 : Graph), (∀ x, (nbrs g0 x).Nodup) →
      ∀ x, (nbrs (l.foldl (fun g e =>
        let ab := split_edge_name e
        if nodes.contains ab.1 && nodes.contains ab.2 then
          adjAdd (adjAdd g ab.1 ab.2) ab.2 ab.1
        else g) g0) x).Nodup := by
    intro l
    induction l with
    | nil => intro g0 h x; exact h x
    | cons e t ih =>
      intro g0 h x
      rw [List.foldl_cons]
      by_cases hc : (nodes.contains (split_edge_name e).1 &&
          nodes.contains (split_edge_name e).2) = true
      · rw [if_pos hc]
        exact ih _ (nbrs_adjAdd_nodup _ _ _ (nbrs_adjAdd_nodup _ _ _ h)) x
      · rw [if_neg hc]; exact ih g0 h x
  exact main edges [] (by intro x; simp [nbrs, Tbl.find?])

theorem keys_insert_nodup [DecidableEq α] (l : List (α × β)) (k : α) (v : β)
    (h : (Tbl.keys l).Nodup) : (Tbl.keys (Tbl.insert l k v)).Nodup := by
  induction l with
  | nil => simp [Tbl.insert, Tbl.keys]
  | cons hd t ih =>
    obtain ⟨k', v'⟩ := hd
    rw [Tbl.keys, List.map_cons, List.nodup_cons] at h
    by_cases hk : k' = k
    · subst hk
      rw [show Tbl.insert ((k', v') :: t) k' v = (k', v) :: t from by simp [Tbl.insert]]
      rw [Tbl.keys, List.map_cons, List.nodup_cons]
      exact h
    · rw [show Tbl.insert ((k', v') :: t) k v = (k', v') :: Tbl.insert t k v from by
        simp [Tbl.insert, hk]]
      rw [Tbl.keys, List.map_cons, List.nodup_cons]
      constructor
      · intro hmem
        have := (Tbl.contains_iff_mem_keys (Tbl.insert t k v) k').mpr hmem
        rw [Tbl.contains_insert_iff] at this
        rcases this with h1 | h1
        · exact h.1 ((Tbl.contains_iff_mem_keys t k').mp h1)
        · exact hk h1
      · exact ih h.2

/-- Keys of a built graph are duplicate-free. -/
theorem buildGraph_keys_nodup (edges : List String) (nodes : List Int) :
    (Tbl.keys (buildGraph edges nodes)).Nodup := by
  rw [buildGraph]
  have main : ∀ (l : List String) (g0 : Graph), (Tbl.keys g0).Nodup →
      (Tbl.keys (l.foldl (fun g e =>
        let ab := split_edge_name e
        if nodes.contains ab.1 && nodes.contains ab.2 then
          adjAdd (adjAdd g ab.1 ab.2) ab.2 ab.1
        else g) g0)).Nodup := by
    intro l
    induction l with
    | nil => intro g0 h; exact h
    | cons e t ih =>
      intro g0 h
      rw [List.foldl_cons]
      by_cases hc : (nodes.contains (split_edge_name e).1 &&
          nodes.contains (split_edge_name e).2) = true
      · rw [if_pos hc]
        exact ih _ (keys_insert_nodup _ _ _ (keys_insert_nodup _ _ _ h))
      · rw [if_neg hc]; exact ih g0 h
  exact main edges [] (by simp [Tbl.keys])

/-! #### Path basics -/

theorem pathTo_ne_nil (g : Graph) (src : Int) (p : List Int) (v : Int)
    (h : PathTo g src p v) : p ≠ [] := by
  intro hp
  rw [hp] at h
  exact Option.noConfusion h.1

theorem pathTo_length_pos (g : Graph) (src : Int) (p : List Int) (v : Int)
    (h : PathTo g src p v) : 1 ≤ p.length := by
  cases p with
  | nil => exact absurd rfl (pathTo_ne_nil g src [] v h)
  | cons a t => simp

theorem pathTo_singleton (g : Graph) (src : Int) (p : List Int) (v : Int)
    (h : PathTo g src p v) (hlen : p.length = 1) : v = src := by
  match p, hlen with
  | [a], _ =>
    obtain ⟨h1, h2, _⟩ := h
    have ha1 : a = src := by simpa using h1
    have ha2 : a = v := by simpa using h2
    rw [← ha2, ha1]

theorem pathTo_src (g : Graph) (src : Int) : PathTo g src [src] src :=
  ⟨rfl, rfl, List.chain'_singleton _⟩

theorem pathTo_extend (g : Graph) (src : Int) (p : List Int) (w v : Int)
    (h : PathTo g src p w) (hadj : GAdj g w v) : PathTo g src (p ++ [v]) v := by
  obtain ⟨h1, h2, h3⟩ := h
  refine ⟨?_, ?_, ?_⟩
  · cases p with
    | nil => exact absurd h1 (by simp)
    | cons a t => simpa using h1
  · simp [List.getLast?_append]
  · rw [List.chain'_append]
    refine ⟨h3, List.chain'_singleton _, ?_⟩
    intro x hx y hy
    have hyv : v = y := by simpa using hy
    rw [h2] at hx
    have hwx : w = x := by simpa using hx
    rw [← hyv, ← hwx]
    exact hadj

theorem pathTo_decomp (g : Graph) (src : Int) (q : List Int) (v : Int)
    (h : PathTo g src q v) (hlen : 2 ≤ q.length) :
    ∃ q' w, q = q' ++ [v] ∧ PathTo g src q' w ∧ GAdj g w v ∧ q'.length + 1 = q.length := by
  obtain ⟨h1, h2, h3⟩ := h
  have hne : q ≠ [] := by intro hq; rw [hq] at h1; exact Option.noConfusion h1
  obtain ⟨q', a, hq⟩ := List.eq_nil_or_concat q |>.resolve_left hne
  rw [List.concat_eq_append] at hq
  subst hq
  have hav : a = v := by
    rw [List.getLast?_append_of_ne_nil _ (by simp)] at h2
    simpa using h2
  subst hav
  have hq'ne : q' ≠ [] := by
    intro hq'
    subst hq'
    simp at hlen
  rw [List.chain'_append] at h3
  obtain ⟨h3q, _, h3link⟩ := h3
  refine ⟨q', q'.getLast hq'ne, rfl, ⟨?_, ?_, h3q⟩, ?_, by simp⟩
  · cases q' with
    | nil => exact absurd rfl hq'ne
    | cons x t => simpa using h1
  · exact List.getLast?_eq_getLast _ hq'ne
  · exact h3link _ (by rw [List.getLast?_eq_getLast _ hq'ne]; rfl) a rfl

/-- In a neighbour-closed seen set containing `src`, every path endpoint is
seen. -/
theorem seen_closed_reach (g : Graph) (src : Int) (seen : List Int)
    (hsrc : src ∈ seen) (hcl : ∀ v ∈ seen, ∀ w, GAdj g v w → w ∈ seen) :
    ∀ (n : Nat) (p : List Int) (v : Int), p.length ≤ n → PathTo g src p v → v ∈ seen := by
  intro n
  induction n with
  | zero =>
    intro p v hn h
    have := pathTo_length_pos g src p v h
    omega
  | succ n ih =>
    intro p v hn h
    by_cases h1 : p.length = 1
    · rw [pathTo_singleton g src p v h h1]; exact hsrc
    · have h2 : 2 ≤ p.length := by
        have := pathTo_length_pos g src p v h
        omega
      obtain ⟨q', w, _, hq', hadj, hlen⟩ := pathTo_decomp g src p v h h2
      exact hcl w (ih q' w (by omega) hq') v hadj

/-! #### Stitching the returned interleaved list -/

/-- The interleaved node/edge representation: nodes alternating with edge
names drawn from the pool, each connecting its surrounding endpoints. -/
inductive Interleaved (edge_pool : List String) : List Int → List PElem → Prop
  | single (a : Int) : Interleaved edge_pool [a] [PElem.node a]
  | cons (a b : Int) (np : List Int) (e : String) (p : List PElem) :
      e ∈ edge_pool →
      pairEq (split_edge_name e).1 (split_edge_name e).2 a b = true →
      Interleaved edge_pool (b :: np) p →
      Interleaved edge_pool (a :: b :: np) (PElem.node a :: PElem.edge (some e) :: p)

theorem find?_spec (p : String → Bool) (l : List String) (x : String)
    (h : l.find? p = some x) : p x = true ∧ x ∈ l := by
  induction l with
  | nil => exact Option.noConfusion h
  | cons a t ih =>
    by_cases hpa : p a = true
    · rw [List.find?_cons_of_pos _ hpa] at h
      have hax : a = x := Option.some_inj.mp h
      subst hax
      exact ⟨hpa, List.mem_cons_self _ _⟩
    · rw [List.find?_cons_of_neg _ (by simpa using hpa)] at h
      obtain ⟨h1, h2⟩ := ih h
      exact ⟨h1, List.mem_cons_of_mem _ h2⟩

theorem edge_between_spec (edge_pool : List String) (a b : Int)
    (h : ∃ e ∈ edge_pool, pairEq (split_edge_name e).1 (split_edge_name e).2 a b = true) :
    ∃ e, edge_between edge_pool a b = some e ∧ e ∈ edge_pool ∧
      pairEq (split_edge_name e).1 (split_edge_name e).2 a b = true := by
  have hs : (edge_pool.find? fun e =>
      pairEq (split_edge_name e).1 (split_edge_name e).2 a b).isSome := by
    rw [List.find?_isSome]
    obtain ⟨e, he, hp⟩ := h
    exact ⟨e, he, hp⟩
  obtain ⟨e, he⟩ := Option.isSome_iff_exists.mp hs
  obtain ⟨hp, hmem⟩ :=
    find?_spec (fun e => pairEq (split_edge_name e).1 (split_edge_name e).2 a b)
      edge_pool e he
  exact ⟨e, he, hmem, by simpa using hp⟩

theorem stitch_interleaved (edge_pool : List String) :
    ∀ (np : List Int),
    np.Chain' (fun a b => ∃ e ∈ edge_pool,
      pairEq (split_edge_name e).1 (split_edge_name e).2 a b = true) →
    np ≠ [] → Interleaved edge_pool np (stitch edge_pool np) := by
  intro np
  induction np with
  | nil => intro _ h; exact absurd rfl h
  | cons a t ih =>
    intro hch _
    cases t with
    | nil => exact Interleaved.single a
    | cons b t2 =>
      rw [List.chain'_cons] at hch
      obtain ⟨e, hee, hmem, hp⟩ := edge_between_spec edge_pool a b hch.1
      show Interleaved edge_pool (a :: b :: t2)
        (PElem.node a :: PElem.edge (edge_between edge_pool a b) :: stitch edge_pool (b :: t2))
      rw [hee]
      exact Interleaved.cons a b t2 e _ hmem hp (ih hch.2 (by simp))

theorem stitch_ne_nil (edge_pool : List String) (np : List Int) (h : np ≠ []) :
    stitch edge_pool np ≠ [] := by
  cases np with
  | nil => exact absurd rfl h
  | cons a t => cases t <;> simp [stitch]

/-! #### The enqueue fold of the BFS and fuel accounting -/

theorem filter_congr_mem (p q : α → Bool) (l : List α) (h : ∀ x ∈ l, p x = q x) :
    l.filter p = l.filter q := by
  induction l with
  | nil => rfl
  | cons a t ih =>
    rw [List.filter_cons, List.filter_cons, h a (List.mem_cons_self _ _),
      ih (fun x hx => h x (List.mem_cons_of_mem _ hx))]

/-- What one BFS expansion step does to queue and seen: append one entry and
one mark per not-yet-seen neighbour, in neighbour order. -/
theorem bfs_fold_spec (npath : List Int) :
    ∀ (nbl : List Int), nbl.Nodup →
    ∀ (q0 : List (Int × List Int)) (seen0 : List Int),
    nbl.foldl (fun (p : List (Int × List Int) × List Int) nbr =>
      if p.2.contains nbr then p
      else (p.1 ++ [(nbr, npath ++ [nbr])], p.2 ++ [nbr])) (q0, seen0) =
    (q0 ++ ((nbl.filter fun n => !seen0.contains n).map fun n => (n, npath ++ [n])),
     seen0 ++ (nbl.filter fun n => !seen0.contains n)) := by
  intro nbl
  induction nbl with
  | nil => intro _ q0 seen0; simp
  | cons n t ih =>
    intro hnd q0 seen0
    rw [List.nodup_cons] at hnd
    rw [List.foldl_cons]
    by_cases hc : seen0.contains n = true
    · rw [if_pos hc]
      rw [ih hnd.2 q0 seen0]
      rw [List.filter_cons, show (!seen0.contains n) = false from by rw [hc]; rfl]
      simp only [Bool.false_eq_true, if_false]
    · rw [if_neg hc]
      rw [ih hnd.2 (q0 ++ [(n, npath ++ [n])]) (seen0 ++ [n])]
      have hfc : t.filter (fun x => !(seen0 ++ [n]).contains x) =
          t.filter fun x => !seen0.contains x := by
        apply filter_congr_mem
        intro x hx
        have hxn : x ≠ n := fun hxn => hnd.1 (hxn ▸ hx)
        have hcc : (seen0 ++ [n]).contains x = seen0.contains x := by
          by_cases hx2 : x ∈ seen0 <;> simp [List.elem_iff, hx2, hxn]
        rw [hcc]
      rw [hfc]
      have hcf : seen0.contains n = false := Bool.eq_false_iff.mpr hc
      rw [List.filter_cons, show (!seen0.contains n) = true from by rw [hcf]; rfl]
      simp only [if_true, List.map_cons]
      rw [List.append_assoc, List.append_assoc]
      rfl

theorem filter_remove_one (n : Int) (s : List Int) (hns : n ∉ s) :
    ∀ (keys : List Int), keys.Nodup → n ∈ keys →
    (keys.filter fun k => !decide (k ∈ s ∨ k = n)).length + 1 =
    (keys.filter fun k => !decide (k ∈ s)).length := by
  intro keys
  induction keys with
  | nil => intro _ h; exact absurd h (List.not_mem_nil _)
  | cons k rest ih =>
    intro hnd hn
    rw [List.nodup_cons] at hnd
    by_cases hkn : k = n
    · subst hkn
      rw [List.filter_cons, List.filter_cons]
      rw [show (!decide (k ∈ s ∨ k = k)) = false from by simp]
      rw [show (!decide (k ∈ s)) = true from by simp [hns]]
      simp only [Bool.false_eq_true, if_false, if_true, List.length_cons]
      have hcongr : rest.filter (fun x => !decide (x ∈ s ∨ x = k)) =
          rest.filter fun x => !decide (x ∈ s) := by
        apply filter_congr_mem
        intro x hx
        have : x ≠ k := fun hxk => hnd.1 (hxk ▸ hx)
        simp [this]
      rw [hcongr]
    · have hn2 : n ∈ rest := by
        rcases List.mem_cons.mp hn with h1 | h1
        · exact absurd h1.symm hkn
        · exact h1
      rw [List.filter_cons, List.filter_cons]
      by_cases hks : k ∈ s
      · rw [show (!decide (k ∈ s ∨ k = n)) = false from by simp [hks]]
        rw [show (!decide (k ∈ s)) = false from by simp [hks]]
        simp only [Bool.false_eq_true, if_false]
        exact ih hnd.2 hn2
      · rw [show (!decide (k ∈ s ∨ k = n)) = true from by simp [hks, hkn]]
        rw [show (!decide (k ∈ s)) = true from by simp [hks]]
        simp only [if_true, List.length_cons]
        have := ih hnd.2 hn2
        omega

def qnodes (q : List (Int × List Int)) : List Int := q.map Prod.fst

/-- The BFS loop invariant: queued paths are valid and minimal, the queue is
two-level with non-decreasing lengths, every node closer than the front
level is seen, seen nodes off the queue have all neighbours seen, and the
destination, once seen, is still queued (otherwise the search would have
returned). -/
structure BfsInv (g : Graph) (src dst : Int) (queue : List (Int × List Int))
    (seen : List Int) (lv : Nat) : Prop where
  qpaths : ∀ x ∈ queue, PathTo g src x.2 x.1
  qmin : ∀ x ∈ queue, ∀ q, PathTo g src q x.1 → x.2.length ≤ q.length
  qlevels : ∃ A B, queue = A ++ B ∧ (∀ x ∈ A, x.2.length = lv) ∧
    (∀ x ∈ B, x.2.length = lv + 1) ∧ (queue ≠ [] → A ≠ [])
  seenlow : ∀ v q, PathTo g src q v → q.length < lv → v ∈ seen
  closed : ∀ v ∈ seen, v ∉ qnodes queue → ∀ w, GAdj g v w → w ∈ seen
  srcseen : src ∈ seen
  qseen : ∀ x ∈ queue, x.1 ∈ seen
  qnodup : (qnodes queue).Nodup
  dstq : dst ∈ seen → dst ∈ qnodes queue

/-- Every node admitting a path of at most the front level's node count is
already seen. -/
theorem bfs_key (g : Graph) (src dst : Int) (queue : List (Int × List Int))
    (seen : List Int) (lv : Nat) (inv : BfsInv g src dst queue seen lv)
    (q : List Int) (v : Int) (hq : PathTo g src q v) (hlen : q.length ≤ lv) :
    v ∈ seen := by
  by_cases h1 : q.length = 1
  · rw [pathTo_singleton g src q v hq h1]; exact inv.srcseen
  · have h2 : 2 ≤ q.length := by
      have := pathTo_length_pos g src q v hq
      omega
    obtain ⟨q', w, _, hq', hadj, hlen'⟩ := pathTo_decomp g src q v hq h2
    have hw : w ∈ seen := inv.seenlow w q' hq' (by omega)
    have hwq : w ∉ qnodes queue := by
      intro hwq
      obtain ⟨x, hx, hx1⟩ := List.mem_map.mp hwq
      have hmin := inv.qmin x hx q' (hx1.symm ▸ hq')
      obtain ⟨A, B, hAB, hA, hB, _⟩ := inv.qlevels
      rw [hAB] at hx
      rcases List.mem_append.mp hx with hxa | hxb
      · have := hA x hxa; omega
      · have := hB x hxb; omega
    exact inv.closed w hw hwq v hadj

theorem fuel_count (ns : List Int) :
    ns.Nodup →
    ∀ (s : List Int) (keys : List Int), keys.Nodup → (∀ x ∈ ns, x ∉ s) →
    (∀ x ∈ ns, x ∈ keys) →
    (keys.filter fun k => !decide (k ∈ s ∨ k ∈ ns)).length + ns.length =
    (keys.filter fun k => !decide (k ∈ s)).length := by
  induction ns with
  | nil =>
    intro _ s keys _ _ _
    rw [filter_congr_mem _ (fun k => !decide (k ∈ s)) _ (by intro x _; simp)]
    simp
  | cons n t ih =>
    intro hnd s keys hknd hdis hsub
    rw [List.nodup_cons] at hnd
    have step1 : (keys.filter fun k => !decide (k ∈ s ∨ k ∈ n :: t)) =
        keys.filter fun k => !decide (k ∈ (s ++ [n]) ∨ k ∈ t) := by
      apply filter_congr_mem
      intro x _
      by_cases h1 : x ∈ s <;> by_cases h2 : x = n <;> by_cases h3 : x ∈ t <;>
        simp [h1, h2, h3]
    rw [step1, List.length_cons]
    have step2 := ih hnd.2 (s ++ [n]) keys hknd
      (fun x hx => by
        rw [List.mem_append]
        rintro (hxs | hxn)
        · exact hdis x (List.mem_cons_of_mem _ hx) hxs
        · rw [List.mem_singleton] at hxn
          exact hnd.1 (hxn ▸ hx))
      (fun x hx => hsub x (List.mem_cons_of_mem _ hx))
    have step3 : (keys.filter fun k => !decide (k ∈ (s ++ [n]))).length + 1 =
        (keys.filter fun k => !decide (k ∈ s)).length := by
      have hcongr : (keys.filter fun k => !decide (k ∈ (s ++ [n]))) =
          keys.filter fun k => !decide (k ∈ s ∨ k = n) := by
        apply filter_congr_mem
        intro x _
        by_cases h1 : x ∈ s <;> by_cases h2 : x = n <;> simp [h1, h2]
      rw [hcongr]
      exact filter_remove_one n s (hdis n (List.mem_cons_self _ _)) keys hknd
        (hsub n (List.mem_cons_self _ _))
    omega

/-- Correctness of the BFS worker: with the invariant and sufficient fuel,
it returns `[]` exactly when no path reaches `dst`, and otherwise the stitch
of a valid minimal node path. -/
theorem bfsAux_correct (g : Graph) (edge_pool : List String) (src dst : Int)
    (hgclosed : ∀ x y, y ∈ nbrs g x → Tbl.contains g y = true)
    (hnbrnd : ∀ x, (nbrs g x).Nodup)
    (hkeysnd : (Tbl.keys g).Nodup) :
    ∀ (fuel : Nat) (queue : List (Int × List Int)) (seen : List Int) (lv : Nat),
    BfsInv g src dst queue seen lv →
    (∀ v ∈ seen, v ∈ Tbl.keys g ∨ v = src) →
    queue.length + ((Tbl.keys g).filter fun k => !decide (k ∈ seen)).length < fuel →
    (bfsAux g edge_pool dst fuel queue seen = [] ∧ ¬ ∃ p, PathTo g src p dst) ∨
    (∃ np, PathTo g src np dst ∧ (∀ q, PathTo g src q dst → np.length ≤ q.length) ∧
      bfsAux g edge_pool dst fuel queue seen = stitch edge_pool np) := by
  intro fuel
  induction fuel with
  | zero => intro queue seen lv _ _ hfuel; omega
  | succ fuel ih =>
    intro queue seen lv inv hseen hfuel
    match queue with
    | [] =>
      left
      refine ⟨rfl, ?_⟩
      rintro ⟨p, hp⟩
      have hdst : dst ∈ seen :=
        seen_closed_reach g src seen inv.srcseen
          (fun v hv w hw => inv.closed v hv (by simp [qnodes]) w hw)
          p.length p dst (le_refl _) hp
      have := inv.dstq hdst
      simp [qnodes] at this
    | (node, npath) :: rest =>
      by_cases hnd : node = dst
      · right
        refine ⟨npath, hnd ▸ inv.qpaths (node, npath) (List.mem_cons_self _ _),
          fun q hq => inv.qmin (node, npath) (List.mem_cons_self _ _) q
            (hnd ▸ hq), ?_⟩
        show (if node = dst then stitch edge_pool npath else _) = stitch edge_pool npath
        rw [if_pos hnd]
      · -- expansion step
        have hfold := bfs_fold_spec npath (nbrs g node) (hnbrnd node) rest seen
        have hstep : bfsAux g edge_pool dst (fuel + 1) ((node, npath) :: rest) seen =
            bfsAux g edge_pool dst fuel
              (rest ++ (((nbrs g node).filter fun n => !seen.contains n).map
                fun n => (n, npath ++ [n])))
              (seen ++ ((nbrs g node).filter fun n => !seen.contains n)) := by
          show (if node = dst then stitch edge_pool npath
            else bfsAux g edge_pool dst fuel
              ((nbrs g node).foldl (fun (p : List (Int × List Int) × List Int) nbr =>
                if p.2.contains nbr then p
                else (p.1 ++ [(nbr, npath ++ [nbr])], p.2 ++ [nbr])) (rest, seen)).1
              ((nbrs g node).foldl (fun (p : List (Int × List Int) × List Int) nbr =>
                if p.2.contains nbr then p
                else (p.1 ++ [(nbr, npath ++ [nbr])], p.2 ++ [nbr])) (rest, seen)).2) = _
          rw [if_neg hnd, hfold]
        rw [hstep]
        -- notation
        obtain ⟨A, B, hAB, hA, hB, hAne⟩ := inv.qlevels
        have hAcons : ∃ A', A = (node, npath) :: A' ∧ rest = A' ++ B := by
          match A, hAne (by simp) with
          | a :: A', _ =>
            rw [List.cons_append] at hAB
            have h1 := List.head_eq_of_cons_eq hAB
            have h2 := List.tail_eq_of_cons_eq hAB
            exact ⟨A', by rw [← h1], h2⟩
        obtain ⟨A', hAeq, hrest⟩ := hAcons
        have hnpLen : npath.length = lv := hA (node, npath) (hAeq ▸ List.mem_cons_self _ _)
        have hnodeSeen : node ∈ seen := inv.qseen (node, npath) (List.mem_cons_self _ _)
        have hpathNode : PathTo g src npath node :=
          inv.qpaths (node, npath) (List.mem_cons_self _ _)
        have hNewMem : ∀ n ∈ (nbrs g node).filter fun n => !seen.contains n,
            n ∈ nbrs g node ∧ n ∉ seen := by
          intro n hn
          have := List.mem_filter.mp hn
          refine ⟨this.1, fun hns => ?_⟩
          have h2 := this.2
          rw [show seen.contains n = true from List.elem_iff.mpr hns] at h2
          simp at h2
        have hKey : ∀ (q : List Int) (v : Int), PathTo g src q v → q.length ≤ lv →
            v ∈ seen := fun q v hq hl =>
          bfs_key g src dst ((node, npath) :: rest) seen lv inv q v hq hl
        have hRestSub : ∀ x ∈ rest, x ∈ (node, npath) :: rest :=
          fun x hx => List.mem_cons_of_mem _ hx
        have hqnodesEq : qnodes ((((nbrs g node).filter fun n => !seen.contains n).map
            fun n => (n, npath ++ [n]))) = (nbrs g node).filter fun n => !seen.contains n := by
          rw [qnodes, List.map_map]
          have hcmp : (Prod.fst ∘ fun n : Int => (n, npath ++ [n])) = fun n => n := by
            funext n; rfl
          rw [hcmp]
          exact List.map_id' _
        have hqnodes' : qnodes (rest ++ (((nbrs g node).filter fun n => !seen.contains n).map
            fun n => (n, npath ++ [n]))) =
            qnodes rest ++ ((nbrs g node).filter fun n => !seen.contains n) := by
          rw [qnodes, List.map_append, ← qnodes, ← qnodes, hqnodesEq]
        have hnodupNew : ((nbrs g node).filter fun n => !seen.contains n).Nodup :=
          List.Nodup.filter _ (hnbrnd node)
        have hqnodupOld : (qnodes rest).Nodup := by
          have := inv.qnodup
          rw [qnodes, List.map_cons, List.nodup_cons] at this
          exact this.2
        -- the new invariant
        refine ih (rest ++ (((nbrs g node).filter fun n => !seen.contains n).map
            fun n => (n, npath ++ [n])))
          (seen ++ ((nbrs g node).filter fun n => !seen.contains n))
          (if A' = [] then lv + 1 else lv) ?_ ?_ ?_
        · constructor
          -- qpaths
          · intro x hx
            rcases List.mem_append.mp hx with hx1 | hx1
            · exact inv.qpaths x (hRestSub x hx1)
            · obtain ⟨n, hn, hxn⟩ := List.mem_map.mp hx1
              rw [← hxn]
              exact pathTo_extend g src npath node n hpathNode (hNewMem n hn).1
          -- qmin
          · intro x hx q hq
            rcases List.mem_append.mp hx with hx1 | hx1
            · exact inv.qmin x (hRestSub x hx1) q hq
            · obtain ⟨n, hn, hxn⟩ := List.mem_map.mp hx1
              rw [← hxn] at hq ⊢
              show (npath ++ [n]).length ≤ q.length
              rw [List.length_append, hnpLen]
              by_contra hcon
              have hql : q.length ≤ lv := by simp at hcon ⊢; omega
              exact (hNewMem n hn).2 (hKey q n hq hql)
          -- qlevels
          · by_cases hA' : A' = []
            · rw [if_pos hA']
              refine ⟨rest ++ (((nbrs g node).filter fun n => !seen.contains n).map
                fun n => (n, npath ++ [n])), [], by rw [List.append_nil], ?_, by simp,
                fun h => h⟩
              intro x hx
              rcases List.mem_append.mp hx with hx1 | hx1
              · rw [hrest, hA'] at hx1
                exact hB x (by simpa using hx1)
              · obtain ⟨n, hn, hxn⟩ := List.mem_map.mp hx1
                rw [← hxn]
                show (npath ++ [n]).length = lv + 1
                rw [List.length_append, hnpLen]
                rfl
            · rw [if_neg hA']
              refine ⟨A', B ++ (((nbrs g node).filter fun n => !seen.contains n).map
                fun n => (n, npath ++ [n])), by rw [hrest, List.append_assoc], ?_, ?_,
                fun _ => hA'⟩
              · intro x hx
                exact hA x (hAeq ▸ List.mem_cons_of_mem _ hx)
              · intro x hx
                rcases List.mem_append.mp hx with hx1 | hx1
                · exact hB x hx1
                · obtain ⟨n, hn, hxn⟩ := List.mem_map.mp hx1
                  rw [← hxn]
                  show (npath ++ [n]).length = lv + 1
                  rw [List.length_append, hnpLen]
                  rfl
          -- seenlow
          · intro v q hq hl
            refine List.mem_append_left _ (hKey q v hq ?_)
            by_cases hA' : A' = [] <;> simp [hA'] at hl <;> omega
          -- closed
          · intro v hv hvq w hw
            rcases List.mem_append.mp hv with hv1 | hv1
            · by_cases hvnode : v = node
              · subst hvnode
                by_cases hws : w ∈ seen
                · exact List.mem_append_left _ hws
                · refine List.mem_append_right _ ?_
                  rw [List.mem_filter]
                  refine ⟨hw, ?_⟩
                  rw [show seen.contains w = false from ?_]
                  · rfl
                  · rw [← Bool.not_eq_true]
                    intro hcc
                    exact hws (List.elem_iff.mp hcc)
              · have hvq2 : v ∉ qnodes ((node, npath) :: rest) := by
                  rw [qnodes, List.map_cons, List.mem_cons]
                  rintro (h1 | h1)
                  · exact hvnode h1
                  · exact hvq (by
                      rw [hqnodes']
                      exact List.mem_append_left _ h1)
                exact List.mem_append_left _ (inv.closed v hv1 hvq2 w hw)
            · exfalso
              apply hvq
              rw [hqnodes']
              exact List.mem_append_right _ hv1
          -- srcseen
          · exact List.mem_append_left _ inv.srcseen
          -- qseen
          · intro x hx
            rcases List.mem_append.mp hx with hx1 | hx1
            · exact List.mem_append_left _ (inv.qseen x (hRestSub x hx1))
            · obtain ⟨n, hn, hxn⟩ := List.mem_map.mp hx1
              rw [← hxn]
              exact List.mem_append_right _ hn
          -- qnodup
          · rw [hqnodes']
            refine List.Nodup.append hqnodupOld hnodupNew ?_
            intro a ha haNew
            have haSeen : a ∈ seen := by
              obtain ⟨x, hx, hxa⟩ := List.mem_map.mp ha
              exact hxa ▸ inv.qseen x (hRestSub x hx)
            exact (hNewMem a haNew).2 haSeen
          -- dstq
          · intro hd
            rw [hqnodes']
            rcases List.mem_append.mp hd with hd1 | hd1
            · have := inv.dstq hd1
              rw [qnodes, List.map_cons, List.mem_cons] at this
              rcases this with h1 | h1
              · exact absurd h1.symm hnd
              · exact List.mem_append_left _ h1
            · exact List.mem_append_right _ hd1
        -- seen ⊆ keys ∪ {src}
        · intro v hv
          rcases List.mem_append.mp hv with hv1 | hv1
          · exact hseen v hv1
          · left
            have := (hNewMem v hv1).1
            exact (Tbl.contains_iff_mem_keys g v).mp (hgclosed node v this)
        -- fuel
        · rw [List.length_append, List.length_map]
          have hcount := fuel_count ((nbrs g node).filter fun n => !seen.contains n)
            hnodupNew seen (Tbl.keys g) hkeysnd
            (fun x hx => (hNewMem x hx).2)
            (fun x hx => (Tbl.contains_iff_mem_keys g x).mp
              (hgclosed node x (hNewMem x hx).1))
          have hcongr : ((Tbl.keys g).filter fun k =>
              !decide (k ∈ seen ++ ((nbrs g node).filter fun n => !seen.contains n))) =
              (Tbl.keys g).filter fun k =>
                !decide (k ∈ seen ∨ k ∈ (nbrs g node).filter fun n => !seen.contains n) := by
            apply filter_congr_mem
            intro x _
            by_cases h1 : x ∈ seen <;>
              by_cases h2 : x ∈ (nbrs g node).filter fun n => !seen.contains n <;>
              simp [h1, h2]
          rw [hcongr]
          simp only [List.length_cons] at hfuel
          omega


/-- C4: `shortestPath` returns the empty result exactly when no path from
`src` to `dst` exists in the undirected adjacency projection restricted to
the given edges and nodes (a single-node path `[src]` counting as the
trivial path when `src = dst`); otherwise it is the interleaved node/edge
rendering of a valid path of minimal node count, and `src = dst` yields
exactly `[src]`. -/
theorem C4_shortest_path_correct (src dst : Int) (edges_ok : List String)
    (nodes_ok : List Int) :
    (shortest_path src dst edges_ok nodes_ok = [] ↔
      ¬ ∃ p, IsPath edges_ok nodes_ok p src dst) ∧
    (shortest_path src dst edges_ok nodes_ok ≠ [] →
      ∃ np, IsPath edges_ok nodes_ok np src dst ∧
        (∀ q, IsPath edges_ok nodes_ok q src dst → np.length ≤ q.length) ∧
        Interleaved edges_ok np (shortest_path src dst edges_ok nodes_ok)) ∧
    (src = dst → shortest_path src dst edges_ok nodes_ok = [PElem.node src]) := by
  have hiff : ∀ p v, PathTo (buildGraph edges_ok nodes_ok) src p v ↔
      IsPath edges_ok nodes_ok p src v := by
    intro p v
    constructor
    · rintro ⟨h1, h2, h3⟩
      exact ⟨h1, h2, h3.imp fun a b h => (gadj_iff _ _ a b).mp h⟩
    · rintro ⟨h1, h2, h3⟩
      exact ⟨h1, h2, h3.imp fun a b h => (gadj_iff _ _ a b).mpr h⟩
  have hinv : BfsInv (buildGraph edges_ok nodes_ok) src dst [(src, [src])] [src] 1 := by
    constructor
    · intro x hx
      rw [List.mem_singleton] at hx
      rw [hx]
      exact pathTo_src _ _
    · intro x hx q hq
      rw [List.mem_singleton] at hx
      rw [hx]
      exact pathTo_length_pos _ _ _ _ hq
    · refine ⟨[(src, [src])], [], rfl, ?_, by simp, fun _ => by simp⟩
      intro x hx
      rw [List.mem_singleton] at hx
      rw [hx]
      rfl
    · intro v q hq hl
      have := pathTo_length_pos _ _ _ _ hq
      omega
    · intro v hv hvq w _
      exfalso
      apply hvq
      rw [List.mem_singleton] at hv
      simp [qnodes, hv]
    · exact List.mem_singleton.mpr rfl
    · intro x hx
      rw [List.mem_singleton] at hx
      rw [hx]
      exact List.mem_singleton.mpr rfl
    · simp [qnodes]
    · intro hd
      rw [List.mem_singleton] at hd
      simp [qnodes, hd]
  have hseen0 : ∀ v ∈ ([src] : List Int),
      v ∈ Tbl.keys (buildGraph edges_ok nodes_ok) ∨ v = src := by
    intro v hv
    right
    exact List.mem_singleton.mp hv
  have hfuel0 : ([(src, [src])] : List (Int × List Int)).length +
      ((Tbl.keys (buildGraph edges_ok nodes_ok)).filter
        fun k => !decide (k ∈ ([src] : List Int))).length <
      (Tbl.keys (buildGraph edges_ok nodes_ok)).length + 2 := by
    have := List.length_filter_le (fun k => !decide (k ∈ ([src] : List Int)))
      (Tbl.keys (buildGraph edges_ok nodes_ok))
    simp only [List.length_singleton]
    omega
  have hmain := bfsAux_correct (buildGraph edges_ok nodes_ok) edges_ok src dst
    (buildGraph_closed edges_ok nodes_ok) (buildGraph_nbrs_nodup edges_ok nodes_ok)
    (buildGraph_keys_nodup edges_ok nodes_ok)
    ((Tbl.keys (buildGraph edges_ok nodes_ok)).length + 2) [(src, [src])] [src] 1
    hinv hseen0 hfuel0
  have hspEq : shortest_path src dst edges_ok nodes_ok =
      bfsAux (buildGraph edges_ok nodes_ok) edges_ok dst
        ((Tbl.keys (buildGraph edges_ok nodes_ok)).length + 2) [(src, [src])] [src] := rfl
  refine ⟨?_, ?_, ?_⟩
  · constructor
    · intro hres
      rcases hmain with ⟨_, hno⟩ | ⟨np, hnp, _, heq⟩
      · intro ⟨p, hp⟩
        exact hno ⟨p, (hiff p dst).mpr hp⟩
      · exfalso
        rw [hspEq, heq] at hres
        exact stitch_ne_nil edges_ok np
          (pathTo_ne_nil _ _ _ _ hnp) hres
    · intro hno
      rcases hmain with ⟨hres, _⟩ | ⟨np, hnp, _, _⟩
      · rw [hspEq, hres]
      · exact absurd ⟨np, (hiff np dst).mp hnp⟩ hno
  · intro hres
    rcases hmain with ⟨hres2, _⟩ | ⟨np, hnp, hmin, heq⟩
    · exact absurd (hspEq.trans hres2) hres
    · refine ⟨np, (hiff np dst).mp hnp, ?_, ?_⟩
      · intro q hq
        exact hmin q ((hiff q dst).mpr hq)
      · rw [hspEq, heq]
        apply stitch_interleaved edges_ok np ?_ (pathTo_ne_nil _ _ _ _ hnp)
        refine hnp.2.2.imp ?_
        intro a b hab
        obtain ⟨e, he, _, _, hp⟩ := (gadj_iff _ _ _ _).mp hab
        exact ⟨e, he, hp⟩
  · intro hsd
    have hpathex : ∃ p, PathTo (buildGraph edges_ok nodes_ok) src p dst :=
      ⟨[src], hsd ▸ pathTo_src _ _⟩
    rcases hmain with ⟨_, hno⟩ | ⟨np, hnp, hmin, heq⟩
    · exact absurd hpathex hno
    · have hnp1 : np.length = 1 := by
        have h1 := hmin [src] (hsd ▸ pathTo_src _ _)
        have h2 := pathTo_length_pos _ _ _ _ hnp
        simp only [List.length_singleton] at h1
        omega
      obtain ⟨x, hx⟩ : ∃ x, np = [x] := by
        match np, hnp1 with
        | [x], _ => exact ⟨x, rfl⟩
      have hxsrc : x = src := by
        rw [hx] at hnp
        simpa using hnp.1
      rw [hspEq, heq, hx, hxsrc]
      rfl

def c10_store : Store :=
  ["node new 1 a", "cluster new 1 sub v", "cluster iso sub"].foldl
    (fun s c => (handle emptyFS s c).2) initStore

/-- Witness for C10: adding node 5 while isolated inside cluster `sub`. -/
theorem C10_addNode_isolated_view_witness :
    c10_store.currentView ≠ DEFAULT_CLUSTER ∧
    Tbl.find? c10_store.clusters c10_store.currentView = some ⟨[1], "v"⟩ ∧
    Tbl.contains c10_store.nodes 5 = false ∧
    (Tbl.find? (addNode c10_store 5 "z").nodes 5 = some "z" ∧
    (∃ d2, Tbl.find? (addNode c10_store 5 "z").clusters c10_store.currentView = some d2 ∧
      (5 : Int) ∈ d2.nodes) ∧
    (5 : Int) ∈ visible_nodes (addNode c10_store 5 "z") ∧
    (∃ dd, Tbl.find? (addNode c10_store 5 "z").clusters DEFAULT_CLUSTER = some dd ∧
      ∀ x, x ∈ dd.nodes ↔ Tbl.contains (addNode c10_store 5 "z").nodes x = true)) :=
  ⟨by decide, by decide, by decide,
    C10_addNode_isolated_view c10_store 5 "z" ⟨[1], "v"⟩ (by decide) (by decide) (by decide)⟩

/-! ### Claims C7 and C8: the reachable-state invariant

The master invariant preserved by every command: every edge key's decoded
endpoints are registered, every cluster's membership (the default included)
is a subset of the registered node set, and the isolation view and default
cluster name live clusters. -/

structure StoreInv (s : Store) : Prop where
  edgesOk : ∀ kv ∈ s.edges, Tbl.contains s.nodes (split_edge_name kv.1).1 = true ∧
    Tbl.contains s.nodes (split_edge_name kv.1).2 = true
  clustersOk : ∀ cd ∈ s.clusters, ∀ x ∈ cd.2.nodes, Tbl.contains s.nodes x = true
  viewOk : Tbl.contains s.clusters s.currentView = true
  defaultOk : Tbl.contains s.clusters DEFAULT_CLUSTER = true

theorem find?_mem [DecidableEq α] (l : List (α × β)) (k : α) (v : β)
    (h : Tbl.find? l k = some v) : (k, v) ∈ l := by
  induction l with
  | nil => exact Option.noConfusion h
  | cons hd t ih =>
    obtain ⟨k', v'⟩ := hd
    by_cases hk : k' = k
    · subst hk
      rw [Tbl.find?, if_pos rfl] at h
      rw [Option.some_inj] at h
      rw [h]
      exact List.mem_cons_self _ _
    · rw [Tbl.find?, if_neg hk] at h
      exact List.mem_cons_of_mem _ (ih h)

theorem contains_mapValues [DecidableEq α] (l : List (α × β)) (f : α × β → γ) (k : α) :
    Tbl.contains (l.map fun cd => (cd.1, f cd)) k = Tbl.contains l k := by
  induction l with
  | nil => rfl
  | cons hd t ih =>
    obtain ⟨k', v'⟩ := hd
    by_cases hk : k' = k <;> simp [Tbl.contains, Tbl.find?, hk] at ih ⊢ <;> exact ih

theorem contains_erase_of_ne [DecidableEq α] (l : List (α × β)) (a k : α)
    (h : Tbl.contains l k = true) (hne : k ≠ a) : Tbl.contains (Tbl.erase l a) k = true := by
  rw [Tbl.contains, Tbl.find?_erase_ne l a k hne]
  exact h

/-- Members of the current view are registered nodes. -/
theorem visible_nodes_sub (s : Store) (hs : StoreInv s) :
    ∀ x ∈ visible_nodes s, Tbl.contains s.nodes x = true := by
  intro x hx
  rw [visible_nodes, visible_nodes_of] at hx
  by_cases hv : s.currentView = DEFAULT_CLUSTER
  · rw [if_pos hv] at hx
    exact (Tbl.contains_iff_mem_keys _ _).mpr hx
  · rw [if_neg hv] at hx
    match hf : Tbl.find? s.clusters s.currentView with
    | none => rw [hf] at hx; exact absurd hx (List.not_mem_nil _)
    | some d =>
      rw [hf] at hx
      exact hs.clustersOk (s.currentView, d) (find?_mem _ _ _ hf) x hx

theorem visible_edge_endpoints (s : Store) (hs : StoreInv s) (e : String)
    (h : visible_edge s e = true) :
    Tbl.contains s.nodes (split_edge_name e).1 = true ∧
    Tbl.contains s.nodes (split_edge_name e).2 = true := by
  rw [visible_edge] at h
  simp only [Bool.and_eq_true] at h
  exact ⟨visible_nodes_sub s hs _ (List.elem_iff.mp h.1),
    visible_nodes_sub s hs _ (List.elem_iff.mp h.2)⟩

theorem edge_in_cluster_endpoints (s : Store) (hs : StoreInv s) (cname : String) (e : String)
    (h : edge_in_cluster s cname e = true) :
    Tbl.contains s.nodes (split_edge_name e).1 = true ∧
    Tbl.contains s.nodes (split_edge_name e).2 = true := by
  rw [edge_in_cluster] at h
  match hf : Tbl.find? s.clusters cname with
  | none => rw [hf] at h; exact Bool.noConfusion h
  | some d =>
    rw [hf] at h
    simp only [Bool.and_eq_true] at h
    have hmem := find?_mem _ _ _ hf
    exact ⟨hs.clustersOk (cname, d) hmem _ (List.elem_iff.mp h.1),
      hs.clustersOk (cname, d) hmem _ (List.elem_iff.mp h.2)⟩

/-- Growing the node table preserves the invariant. -/
theorem inv_nodes_insert (s : Store) (hs : StoreInv s) (k : Int) (v : String) :
    StoreInv { s with nodes := Tbl.insert s.nodes k v } := by
  refine ⟨?_, ?_, hs.viewOk, hs.defaultOk⟩
  · intro kv hkv
    obtain ⟨h1, h2⟩ := hs.edgesOk kv hkv
    exact ⟨Tbl.contains_insert_of_contains _ _ _ _ h1,
      Tbl.contains_insert_of_contains _ _ _ _ h2⟩
  · intro cd hcd x hx
    exact Tbl.contains_insert_of_contains _ _ _ _ (hs.clustersOk cd hcd x hx)

theorem inv_sync_default (s : Store) (hs : StoreInv s) : StoreInv (sync_default s) := by
  refine ⟨hs.edgesOk, ?_, ?_, ?_⟩
  · intro cd hcd x hx
    rcases Tbl.mem_insert _ _ _ _ hcd with h1 | h1
    · exact hs.clustersOk cd h1 x hx
    · rw [h1] at hx
      exact (Tbl.contains_iff_mem_keys _ _).mpr hx
  · exact Tbl.contains_insert_of_contains _ _ _ _ hs.viewOk
  · exact Tbl.contains_insert_self _ _ _

theorem inv_addNode (s : Store) (hs : StoreInv s) (nid : Int) (val : String) :
    StoreInv (addNode s nid val) := by
  have h1 : StoreInv (sync_default { s with nodes := Tbl.insert s.nodes nid val }) :=
    inv_sync_default _ (inv_nodes_insert s hs nid val)
  rw [addNode]
  by_cases hv : (sync_default { s with nodes := Tbl.insert s.nodes nid val }).currentView =
      DEFAULT_CLUSTER
  · rw [if_pos hv]; exact h1
  · rw [if_neg hv]
    set s1 := sync_default { s with nodes := Tbl.insert s.nodes nid val } with hs1
    rw [clusterAddMember]
    match hf : Tbl.find? s1.clusters s1.currentView with
    | none => exact h1
    | some d =>
      refine ⟨h1.edgesOk, ?_, ?_, ?_⟩
      · intro cd hcd x hx
        rcases Tbl.mem_insert _ _ _ _ hcd with h2 | h2
        · exact h1.clustersOk cd h2 x hx
        · rw [h2] at hx
          rcases (SetL.mem_add _ _ _).mp hx with h3 | h3
          · exact h1.clustersOk (s1.currentView, d) (find?_mem _ _ _ hf) x h3
          · rw [h3]
            show Tbl.contains (Tbl.insert s.nodes nid val) nid = true
            exact Tbl.contains_insert_self _ _ _
      · exact Tbl.contains_insert_of_contains _ _ _ _ h1.viewOk
      · exact Tbl.contains_insert_of_contains _ _ _ _ h1.defaultOk

theorem inv_removeNode (s : Store) (hs : StoreInv s) (nid : Int) :
    StoreInv (removeNode s nid) := by
  rw [removeNode]
  apply inv_sync_default
  refine ⟨?_, ?_, ?_, ?_⟩
  · intro kv hkv
    have h1 := List.mem_filter.mp hkv
    have h2 := hs.edgesOk kv h1.1
    have h3 := h1.2
    simp only [Bool.not_eq_true', Bool.or_eq_false_iff, decide_eq_false_iff_not] at h3
    exact ⟨contains_erase_of_ne _ _ _ h2.1 h3.1, contains_erase_of_ne _ _ _ h2.2 h3.2⟩
  · intro cd hcd x hx
    obtain ⟨cd0, hcd0, hmap⟩ := List.mem_map.mp hcd
    rw [← hmap] at hx
    have h4 := (SetL.mem_discard _ _ _).mp hx
    exact contains_erase_of_ne _ _ _ (hs.clustersOk cd0 hcd0 x h4.1) h4.2
  · show Tbl.contains (s.clusters.map fun cd =>
      (cd.1, (⟨SetL.discard cd.2.nodes nid, cd.2.value⟩ : ClusterData))) s.currentView = true
    rw [contains_mapValues]
    exact hs.viewOk
  · show Tbl.contains (s.clusters.map fun cd =>
      (cd.1, (⟨SetL.discard cd.2.nodes nid, cd.2.value⟩ : ClusterData))) DEFAULT_CLUSTER = true
    rw [contains_mapValues]
    exact hs.defaultOk

/-- Inserting an edge whose decoded endpoints are registered. -/
theorem inv_edges_insert (s : Store) (hs : StoreInv s) (name v : String)
    (h1 : Tbl.contains s.nodes (split_edge_name name).1 = true)
    (h2 : Tbl.contains s.nodes (split_edge_name name).2 = true) :
    StoreInv { s with edges := Tbl.insert s.edges name v } := by
  refine ⟨?_, hs.clustersOk, hs.viewOk, hs.defaultOk⟩
  intro kv hkv
  rcases Tbl.mem_insert _ _ _ _ hkv with h3 | h3
  · exact hs.edgesOk kv h3
  · rw [h3]
    exact ⟨h1, h2⟩

theorem inv_edges_erase (s : Store) (hs : StoreInv s) (name : String) :
    StoreInv { s with edges := Tbl.erase s.edges name } := by
  refine ⟨?_, hs.clustersOk, hs.viewOk, hs.defaultOk⟩
  intro kv hkv
  exact hs.edgesOk kv (List.mem_filter.mp hkv).1

theorem inv_edges_mapValues (s : Store) (hs : StoreInv s) (f : String × String → String) :
    StoreInv { s with edges := s.edges.map fun kv => (kv.1, f kv) } := by
  refine ⟨?_, hs.clustersOk, hs.viewOk, hs.defaultOk⟩
  intro kv hkv
  obtain ⟨kv0, hkv0, hmap⟩ := List.mem_map.mp hkv
  rw [← hmap]
  exact hs.edgesOk kv0 hkv0

theorem inv_clusters_insert (s : Store) (hs : StoreInv s) (cname : String) (d : ClusterData)
    (hd : ∀ x ∈ d.nodes, Tbl.contains s.nodes x = true) :
    StoreInv { s with clusters := Tbl.insert s.clusters cname d } := by
  refine ⟨hs.edgesOk, ?_, ?_, ?_⟩
  · intro cd hcd x hx
    rcases Tbl.mem_insert _ _ _ _ hcd with h1 | h1
    · exact hs.clustersOk cd h1 x hx
    · rw [h1] at hx
      exact hd x hx
  · exact Tbl.contains_insert_of_contains _ _ _ _ hs.viewOk
  · exact Tbl.contains_insert_of_contains _ _ _ _ hs.defaultOk

theorem inv_clusters_erase (s : Store) (hs : StoreInv s) (cname : String)
    (hv : s.currentView ≠ cname) (hd : DEFAULT_CLUSTER ≠ cname) :
    StoreInv { s with clusters := Tbl.erase s.clusters cname } := by
  refine ⟨hs.edgesOk, ?_, ?_, ?_⟩
  · intro cd hcd x hx
    exact hs.clustersOk cd (List.mem_filter.mp hcd).1 x hx
  · exact contains_erase_of_ne _ _ _ hs.viewOk hv
  · exact contains_erase_of_ne _ _ _ hs.defaultOk hd

theorem inv_set_view (s : Store) (hs : StoreInv s) (cname : String)
    (h : Tbl.contains s.clusters cname = true) :
    StoreInv { s with currentView := cname } :=
  ⟨hs.edgesOk, hs.clustersOk, h, hs.defaultOk⟩

/-! #### Bool-guard eliminators -/

theorem bool_not_not_elim (a : Bool) (h : ¬((!a) = true)) : a = true := by
  cases a <;> simp at h ⊢

theorem bool_not_or_elim (a b : Bool) (h : ¬((!a || !b) = true)) : a = true ∧ b = true := by
  cases a <;> cases b <;> simp at h ⊢

theorem decide_not_or_elim (p q : Prop) [Decidable p] [Decidable q]
    (h : ¬((decide p || decide q) = true)) : ¬p ∧ ¬q := by
  constructor
  · intro hp
    exact h (by rw [decide_eq_true hp, Bool.true_or])
  · intro hq
    exact h (by rw [decide_eq_true hq, Bool.or_true])

theorem filter_isEmpty_eq_nil (p : α → Bool) (l : List α)
    (h : (l.filter p).isEmpty = true) : l.filter p = [] := by
  cases hf : l.filter p with
  | nil => rfl
  | cons a t => rw [hf] at h; exact Bool.noConfusion h

/-! #### Per-branch invariance of the `node` handler -/

theorem node_new_inv (s : Store) (toks rest : List String) (hs : StoreInv s) :
    StoreInv (node_new s toks rest).2 := by
  rw [node_new.eq_def]
  repeat' split
  all_goals first
    | exact hs
    | exact inv_addNode s hs _ _

theorem node_up_inv (s : Store) (toks rest : List String) (hs : StoreInv s) :
    StoreInv (node_up s toks rest).2 := by
  rw [node_up.eq_def]
  repeat' split
  all_goals first
    | exact hs
    | exact inv_nodes_insert s hs _ _

theorem node_rmv_inv (s : Store) (toks rest : List String) (hs : StoreInv s) :
    StoreInv (node_rmv s toks rest).2 := by
  rw [node_rmv.eq_def]
  repeat' split
  all_goals first
    | exact hs
    | exact inv_removeNode s hs _

theorem nodeCmd_inv (s : Store) (toks : List String) (hs : StoreInv s) :
    StoreInv (nodeCmd s toks).2 := by
  rw [nodeCmd.eq_def]
  repeat' split
  all_goals first
    | exact hs
    | exact node_new_inv s _ _ hs
    | exact node_up_inv s _ _ hs
    | exact node_rmv_inv s _ _ hs

/-! #### Per-branch invariance of the `edge` handler -/

theorem inv_edge_new (s : Store) (hs : StoreInv s) (i j eid : Int) (v : String)
    (h : ¬((!(visible_nodes s).contains i || !(visible_nodes s).contains j) = true)) :
    StoreInv { s with edges := Tbl.insert s.edges (make_edge_name i j eid) v } := by
  obtain ⟨hi, hj⟩ := bool_not_or_elim _ _ h
  refine inv_edges_insert s hs _ v ?_ ?_
  · rw [split_make_edge_name]
    exact visible_nodes_sub s hs i (List.elem_iff.mp hi)
  · rw [split_make_edge_name]
    exact visible_nodes_sub s hs j (List.elem_iff.mp hj)

theorem inv_edge_upsert (s : Store) (hs : StoreInv s) (name v : String)
    (h : ¬((!visible_edge s name) = true)) :
    StoreInv { s with edges := Tbl.insert s.edges name v } := by
  obtain ⟨h1, h2⟩ := visible_edge_endpoints s hs name (bool_not_not_elim _ h)
  exact inv_edges_insert s hs name v h1 h2

theorem inv_edges_map_upd (s : Store) (hs : StoreInv s) (i j : Int) (v : String) :
    StoreInv { s with edges := (s.edges.map fun kv =>
      if pairEq (split_edge_name kv.1).1 (split_edge_name kv.1).2 i j then (kv.1, v)
      else kv) } := by
  refine ⟨?_, hs.clustersOk, hs.viewOk, hs.defaultOk⟩
  intro kv hkv
  obtain ⟨kv0, hkv0, hmap⟩ := List.mem_map.mp hkv
  have h1 : kv.1 = kv0.1 := by
    by_cases hc : pairEq (split_edge_name kv0.1).1 (split_edge_name kv0.1).2 i j = true
    · rw [if_pos hc] at hmap
      rw [← hmap]
    · rw [if_neg hc] at hmap
      rw [← hmap]
  rw [h1]
  exact hs.edgesOk kv0 hkv0

theorem edge_new_inv (s : Store) (toks rest : List String) (hs : StoreInv s) :
    StoreInv (edge_new s toks rest).2 := by
  rw [edge_new.eq_def]
  repeat' split
  all_goals first
    | exact hs
    | exact inv_edge_new s hs _ _ _ _ (by assumption)

theorem edge_rmv_inv (s : Store) (rest : List String) (hs : StoreInv s) :
    StoreInv (edge_rmv s rest).2 := by
  rw [edge_rmv.eq_def]
  repeat' split
  all_goals first
    | exact hs
    | exact inv_edges_erase s hs _

theorem edge_up_inv (s : Store) (toks rest : List String) (hs : StoreInv s) :
    StoreInv (edge_up s toks rest).2 := by
  rw [edge_up.eq_def]
  repeat' split
  all_goals first
    | exact hs
    | exact inv_edges_map_upd s hs _ _ _
    | exact inv_edge_upsert s hs _ _ (by assumption)

theorem edgeCmd_inv (s : Store) (toks : List String) (hs : StoreInv s) :
    StoreInv (edgeCmd s toks).2 := by
  rw [edgeCmd.eq_def]
  repeat' split
  all_goals first
    | exact hs
    | exact edge_new_inv s _ _ hs
    | exact edge_rmv_inv s _ hs
    | exact edge_up_inv s _ _ hs

/-! #### Per-branch invariance of the `cluster` handler -/

theorem inv_cluster_new (s : Store) (hs : StoreInv s) (cname : String) (ns : List Int)
    (cval : String)
    (h : ¬((!((ns.filter fun n => !Tbl.contains s.nodes n).isEmpty)) = true)) :
    StoreInv { s with clusters := Tbl.insert s.clusters cname ⟨ns, cval⟩ } := by
  have hemp := filter_isEmpty_eq_nil _ _ (bool_not_not_elim _ h)
  refine inv_clusters_insert s hs cname ⟨ns, cval⟩ ?_
  intro x hx
  cases hcx : Tbl.contains s.nodes x with
  | true => rfl
  | false =>
    exfalso
    have hxf : x ∈ ns.filter fun n => !Tbl.contains s.nodes n :=
      List.mem_filter.mpr ⟨hx, by show (!Tbl.contains s.nodes x) = true; rw [hcx]; rfl⟩
    rw [hemp] at hxf
    exact absurd hxf (List.not_mem_nil x)

theorem cluster_new_inv (s : Store) (toks rest : List String) (hs : StoreInv s) :
    StoreInv (cluster_new s toks rest).2 := by
  rw [cluster_new.eq_def]
  repeat' split
  all_goals first
    | exact hs
    | exact inv_cluster_new s hs _ _ _ (by assumption)

theorem inv_cluster_rmv (s : Store) (hs : StoreInv s) (cname : String)
    (h : ¬((decide (cname = DEFAULT_CLUSTER) || decide (cname = s.currentView)) = true)) :
    StoreInv { s with clusters := Tbl.erase s.clusters cname } := by
  obtain ⟨h1, h2⟩ := decide_not_or_elim _ _ h
  exact inv_clusters_erase s hs cname (fun he => h2 he.symm) (fun he => h1 he.symm)

theorem cluster_rmv_inv (s : Store) (toks rest : List String) (hs : StoreInv s) :
    StoreInv (cluster_rmv s toks rest).2 := by
  rw [cluster_rmv.eq_def]
  repeat' split
  all_goals first
    | exact hs
    | exact inv_cluster_rmv s hs _ (by assumption)

theorem cluster_iso_inv (s : Store) (toks rest : List String) (hs : StoreInv s) :
    StoreInv (cluster_iso s toks rest).2 := by
  rw [cluster_iso.eq_def]
  repeat' split
  all_goals first
    | exact hs
    | exact inv_set_view s hs DEFAULT_CLUSTER hs.defaultOk
    | exact inv_set_view s hs _ (bool_not_not_elim _ (by assumption))

/-! #### Invariance of the importer -/

theorem inv_regNodes (s : Store) (hs : StoreInv s) (ids : List Int) :
    StoreInv { s with nodes := (regNodes s.nodes ids).1 } := by
  refine ⟨?_, ?_, hs.viewOk, hs.defaultOk⟩
  · intro kv hkv
    obtain ⟨h1, h2⟩ := hs.edgesOk kv hkv
    exact ⟨(regNodes_contains _ _ _).mpr (Or.inl h1),
      (regNodes_contains _ _ _).mpr (Or.inl h2)⟩
  · intro cd hcd x hx
    exact (regNodes_contains _ _ _).mpr (Or.inl (hs.clustersOk cd hcd x hx))

/-- Edges produced by one matrix row decode to endpoints contained in any node
table that holds the row id and every column id. -/
theorem importCellsRow_edgesOk (nodes : List (Int × String)) (col_ids : List Int)
    (rid : Int) (hrid : Tbl.contains nodes rid = true)
    (hcol : ∀ c ∈ col_ids, Tbl.contains nodes c = true) :
    ∀ (cells : List String) (cIdx : Nat) (edges : List (String × String)) (cnt : Nat),
      (∀ kv ∈ edges, Tbl.contains nodes (split_edge_name kv.1).1 = true ∧
        Tbl.contains nodes (split_edge_name kv.1).2 = true) →
      ∀ kv ∈ (importCellsRow col_ids rid cells cIdx edges cnt).2.1,
        Tbl.contains nodes (split_edge_name kv.1).1 = true ∧
        Tbl.contains nodes (split_edge_name kv.1).2 = true := by
  intro cells
  induction cells with
  | nil => intro cIdx edges cnt hedges; exact hedges
  | cons cell rest ih =>
    intro cIdx edges cnt hedges
    rw [importCellsRow.eq_def]
    dsimp only
    split
    · exact ih _ _ _ hedges
    · split
      · exact hedges
      · split
        · exact hedges
        · rename_i xo cid heqc xe eid heqe
          refine ih _ _ _ ?_
          intro kv hkv
          rcases Tbl.mem_insert _ _ _ _ hkv with h1 | h1
          · exact hedges kv h1
          · rw [h1]
            refine ⟨?_, ?_⟩
            · rw [split_make_edge_name]; exact hrid
            · rw [split_make_edge_name]; exact hcol cid (List.get?_mem heqc)

theorem importCells_edgesOk (nodes : List (Int × String)) (col_ids : List Int)
    (hcol : ∀ c ∈ col_ids, Tbl.contains nodes c = true) :
    ∀ (pairs : List (Int × List String)) (edges : List (String × String)) (cnt : Nat),
      (∀ p ∈ pairs, Tbl.contains nodes p.1 = true) →
      (∀ kv ∈ edges, Tbl.contains nodes (split_edge_name kv.1).1 = true ∧
        Tbl.contains nodes (split_edge_name kv.1).2 = true) →
      ∀ kv ∈ (importCells col_ids pairs edges cnt).2.1,
        Tbl.contains nodes (split_edge_name kv.1).1 = true ∧
        Tbl.contains nodes (split_edge_name kv.1).2 = true := by
  intro pairs
  induction pairs with
  | nil => intro edges cnt _ hedges; exact hedges
  | cons hd tl ih =>
    intro edges cnt hrids hedges
    obtain ⟨rid, row⟩ := hd
    have h0 := importCellsRow_edgesOk nodes col_ids rid
      (hrids (rid, row) (List.mem_cons_self _ _)) hcol (row.drop 1) 0 edges cnt hedges
    rw [importCells.eq_def]
    dsimp only
    cases hres : importCellsRow col_ids rid (row.drop 1) 0 edges cnt with
    | mk err p2 =>
      cases p2 with
      | mk edges1 cnt1 =>
        rw [hres] at h0
        cases err with
        | none =>
          exact ih edges1 cnt1 (fun p hp => hrids p (List.mem_cons_of_mem _ hp)) h0
        | some e =>
          exact fun kv hkv => h0 kv hkv

/-- `cluster open` preserves the store invariant on every exit path of the
importer, including the partial-write error paths. -/
theorem import_inv (fs : FS) (s : Store) (fp cn : String) (hs : StoreInv s) :
    StoreInv (import_csv_matrix fs s fp cn).2 := by
  rw [import_csv_matrix.eq_def]
  cases hfs : fs fp with
  | none => exact hs
  | some rows =>
    cases rows with
    | nil => exact hs
    | cons r0 rtl =>
      dsimp only
      by_cases hlen : r0.length < 2
      · rw [if_pos hlen]; exact hs
      · rw [if_neg hlen]
        cases hcol : colInts (r0.drop 1) with
        | none => exact hs
        | some col_ids =>
          cases hrow : rowHeadInts rtl with
          | error e => exact hs
          | ok row_ids =>
            dsimp only
            by_cases hdup : Tbl.contains s.clusters cn = true
            · rw [if_pos hdup]
              exact inv_regNodes s hs _
            · rw [if_neg hdup]
              have h1 : StoreInv { s with nodes :=
                  (regNodes s.nodes ((col_ids ++ row_ids).foldl SetL.add [])).1 } :=
                inv_regNodes s hs _
              have hcolc : ∀ c ∈ col_ids, Tbl.contains
                  (regNodes s.nodes ((col_ids ++ row_ids).foldl SetL.add [])).1 c = true :=
                fun c hc => (regNodes_contains _ _ c).mpr
                  (Or.inr ((mem_foldl_SetL_add _ _ c).mpr
                    (Or.inr (List.mem_append_left _ hc))))
              have hrowc : ∀ r ∈ row_ids, Tbl.contains
                  (regNodes s.nodes ((col_ids ++ row_ids).foldl SetL.add [])).1 r = true :=
                fun r hr => (regNodes_contains _ _ r).mpr
                  (Or.inr ((mem_foldl_SetL_add _ _ r).mpr
                    (Or.inr (List.mem_append_right _ hr))))
              have h2 : StoreInv { s with
                  nodes := (regNodes s.nodes ((col_ids ++ row_ids).foldl SetL.add [])).1,
                  clusters := Tbl.insert s.clusters cn
                    ⟨col_ids.foldl SetL.add [], "CSV:" ++ fp⟩ } := by
                exact inv_clusters_insert _ h1 cn
                  ⟨col_ids.foldl SetL.add [], "CSV:" ++ fp⟩
                  (fun x hx => hcolc x
                    (((mem_foldl_SetL_add _ _ x).mp hx).resolve_left (List.not_mem_nil x)))
              have himpOk := importCells_edgesOk
                (regNodes s.nodes ((col_ids ++ row_ids).foldl SetL.add [])).1
                col_ids hcolc (row_ids.zip rtl) s.edges 0
                (fun p hp => hrowc p.1 (List.of_mem_zip hp).1)
                h1.edgesOk
              cases himp : importCells col_ids (row_ids.zip rtl) s.edges 0 with
              | mk err rest2 =>
                cases rest2 with
                | mk edges1 cnt1 =>
                  rw [himp] at himpOk
                  cases err with
                  | none =>
                    exact inv_sync_default _
                      ⟨fun kv hkv => himpOk kv hkv, h2.clustersOk, h2.viewOk, h2.defaultOk⟩
                  | some e =>
                    exact ⟨fun kv hkv => himpOk kv hkv, h2.clustersOk, h2.viewOk,
                      h2.defaultOk⟩

theorem clusterCmd_inv (fs : FS) (s : Store) (toks : List String) (hs : StoreInv s) :
    StoreInv (clusterCmd fs s toks).2 := by
  rw [clusterCmd.eq_def]
  repeat' split
  all_goals first
    | exact hs
    | exact import_inv fs s _ _ hs
    | exact cluster_new_inv s _ _ hs
    | exact cluster_rmv_inv s _ _ hs
    | exact cluster_iso_inv s _ _ hs

/-! #### Per-branch invariance of the cluster-scoped handlers -/

theorem inv_cluster_member_add (s : Store) (hs : StoreInv s) (cname : String)
    (cd : ClusterData) (hcd : Tbl.find? s.clusters cname = some cd) (nid : Int)
    (h : ¬((!Tbl.contains s.nodes nid) = true)) :
    StoreInv { s with clusters := (Tbl.insert s.clusters cname
      ⟨SetL.add cd.nodes nid, cd.value⟩) } := by
  refine inv_clusters_insert s hs cname ⟨SetL.add cd.nodes nid, cd.value⟩ ?_
  intro x hx
  rcases (SetL.mem_add _ _ _).mp hx with h1 | h1
  · exact hs.clustersOk (cname, cd) (find?_mem _ _ _ hcd) x h1
  · rw [h1]
    exact bool_not_not_elim _ h

theorem inv_cluster_member_discard (s : Store) (hs : StoreInv s) (cname : String)
    (cd : ClusterData) (hcd : Tbl.find? s.clusters cname = some cd) (nid : Int) :
    StoreInv { s with clusters := (Tbl.insert s.clusters cname
      ⟨SetL.discard cd.nodes nid, cd.value⟩) } := by
  refine inv_clusters_insert s hs cname ⟨SetL.discard cd.nodes nid, cd.value⟩ ?_
  intro x hx
  exact hs.clustersOk (cname, cd) (find?_mem _ _ _ hcd) x ((SetL.mem_discard _ _ _).mp hx).1

theorem cn_mod_inv (s : Store) (cname : String) (cd : ClusterData) (t0 : String)
    (rest : List String) (hcd : Tbl.find? s.clusters cname = some cd) (hs : StoreInv s) :
    StoreInv (cn_mod s cname cd t0 rest).2 := by
  rw [cn_mod.eq_def]
  repeat' split
  all_goals first
    | exact hs
    | exact inv_cluster_member_add s hs cname cd hcd _ (by assumption)
    | exact inv_cluster_member_discard s hs cname cd hcd _

theorem clusterNodeCmd_inv (s : Store) (cname : String) (toks : List String)
    (hs : StoreInv s) : StoreInv (clusterNodeCmd s cname toks).2 := by
  rw [clusterNodeCmd.eq_def]
  repeat' split
  all_goals first
    | exact hs
    | exact cn_mod_inv s cname _ _ _ (by assumption) hs

theorem inv_cluster_edge_new (s : Store) (hs : StoreInv s) (cname : String)
    (cd : ClusterData) (hcd : Tbl.find? s.clusters cname = some cd) (i j eid : Int)
    (v : String) (h : ¬((!cd.nodes.contains i || !cd.nodes.contains j) = true)) :
    StoreInv { s with edges := Tbl.insert s.edges (make_edge_name i j eid) v } := by
  obtain ⟨hi, hj⟩ := bool_not_or_elim _ _ h
  refine inv_edges_insert s hs _ v ?_ ?_
  · rw [split_make_edge_name]
    exact hs.clustersOk (cname, cd) (find?_mem _ _ _ hcd) i (List.elem_iff.mp hi)
  · rw [split_make_edge_name]
    exact hs.clustersOk (cname, cd) (find?_mem _ _ _ hcd) j (List.elem_iff.mp hj)

theorem ce_new_inv (s : Store) (cname : String) (cd : ClusterData) (toks rest : List String)
    (hcd : Tbl.find? s.clusters cname = some cd) (hs : StoreInv s) :
    StoreInv (ce_new s cname cd toks rest).2 := by
  rw [ce_new.eq_def]
  repeat' split
  all_goals first
    | exact hs
    | exact inv_cluster_edge_new s hs cname cd hcd _ _ _ _ (by assumption)

theorem ce_rmv_inv (s : Store) (cname : String) (rest : List String) (hs : StoreInv s) :
    StoreInv (ce_rmv s cname rest).2 := by
  rw [ce_rmv.eq_def]
  repeat' split
  all_goals first
    | exact hs
    | exact inv_edges_erase s hs _

theorem clusterEdgeCmd_inv (s : Store) (cname : String) (toks : List String)
    (hs : StoreInv s) : StoreInv (clusterEdgeCmd s cname toks).2 := by
  rw [clusterEdgeCmd.eq_def]
  repeat' split
  all_goals first
    | exact hs
    | exact ce_new_inv s cname _ _ _ (by assumption) hs
    | exact ce_rmv_inv s cname _ hs

/-! #### The dispatcher and reachability -/

theorem globalCmd_inv (fs : FS) (s : Store) (t0 : String) (rest : List String)
    (hs : StoreInv s) : StoreInv (globalCmd fs s t0 rest).2 := by
  rw [globalCmd.eq_def]
  repeat' split
  all_goals first
    | exact hs
    | exact nodeCmd_inv s _ hs
    | exact edgeCmd_inv s _ hs
    | exact clusterCmd_inv fs s _ hs

theorem handle_inv (fs : FS) (s : Store) (cmd : String) (hs : StoreInv s) :
    StoreInv (handle fs s cmd).2 := by
  rw [handle.eq_def]
  repeat' split
  all_goals first
    | exact hs
    | exact clusterNodeCmd_inv s _ _ hs
    | exact clusterEdgeCmd_inv s _ _ hs
    | exact globalCmd_inv fs s _ _ hs

theorem inv_initStore : StoreInv initStore := by
  refine ⟨?_, ?_, rfl, rfl⟩
  · intro kv hkv
    exact absurd hkv (List.not_mem_nil kv)
  · intro cd hcd x hx
    rcases Tbl.mem_insert _ _ _ _ hcd with h1 | h1
    · exact absurd h1 (List.not_mem_nil cd)
    · rw [h1] at hx
      exact absurd hx (List.not_mem_nil x)

theorem reachable_inv (s : Store) (h : Reachable s) : StoreInv s := by
  induction h with
  | init => exact inv_initStore
  | step fs cmd s hr ih => exact handle_inv fs s cmd ih

/-! ### Claims C7 and C8 -/

/-- A concrete reachable state holding one edge, used to instantiate C7. -/
def c7_store : Store :=
  (handle emptyFS (handle emptyFS (handle emptyFS initStore "node new 1 a").2
    "node new 2 b").2 "edge new 1 2 1 x").2

/-- C7: in every state reachable from the fresh engine by any command
sequence, every key of the edge table decodes (via `split_edge_name`, with its
`(-1, -1)` fallback for non-canonical names) to a pair of endpoints both
present in the node table — no edge is ever left dangling. -/
theorem C7_edges_never_dangling (s : Store) (h : Reachable s) :
    ∀ kv ∈ s.edges, Tbl.contains s.nodes (split_edge_name kv.1).1 = true ∧
      Tbl.contains s.nodes (split_edge_name kv.1).2 = true :=
  (reachable_inv s h).edgesOk

theorem C7_edges_never_dangling_witness :
    Tbl.contains c7_store.nodes (split_edge_name "1_2_1").1 = true ∧
    Tbl.contains c7_store.nodes (split_edge_name "1_2_1").2 = true :=
  C7_edges_never_dangling c7_store
    (Reachable.step emptyFS "edge new 1 2 1 x" _
      (Reachable.step emptyFS "node new 2 b" _
        (Reachable.step emptyFS "node new 1 a" _ Reachable.init)))
    ("1_2_1", "x") (by decide)

/-- A concrete reachable state holding a user cluster, used to instantiate C8. -/
def c8_store : Store :=
  (handle emptyFS (handle emptyFS (handle emptyFS initStore "node new 1 a").2
    "node new 2 b").2 "cluster new 1 2 c v").2

/-- C8: in every reachable state, the membership of every cluster other than
the default is a subset of the registered node set, so the node set visible
under the default view contains the node set visible under that cluster. -/
theorem C8_cluster_subset_default (s : Store) (h : Reachable s) :
    ∀ cd ∈ s.clusters, cd.1 ≠ DEFAULT_CLUSTER →
      ∀ x ∈ visible_nodes_of s cd.1, x ∈ visible_nodes_of s DEFAULT_CLUSTER := by
  intro cd hcd hne x hx
  rw [visible_nodes_of, if_pos rfl]
  rw [visible_nodes_of, if_neg hne] at hx
  cases hf : Tbl.find? s.clusters cd.1 with
  | none => rw [hf] at hx; exact absurd hx (List.not_mem_nil x)
  | some d =>
    rw [hf] at hx
    exact (Tbl.contains_iff_mem_keys _ _).mp
      ((reachable_inv s h).clustersOk (cd.1, d) (find?_mem _ _ _ hf) x hx)

theorem C8_cluster_subset_default_witness :
    ("c", (⟨[1, 2], "v"⟩ : ClusterData)) ∈ c8_store.clusters ∧
    "c" ≠ DEFAULT_CLUSTER ∧
    (1 : Int) ∈ visible_nodes_of c8_store "c" ∧
    (1 : Int) ∈ visible_nodes_of c8_store DEFAULT_CLUSTER :=
  ⟨by decide, by decide, by decide,
    C8_cluster_subset_default c8_store
      (Reachable.step emptyFS "cluster new 1 2 c v" _
        (Reachable.step emptyFS "node new 2 b" _
          (Reachable.step emptyFS "node new 1 a" _ Reachable.init)))
      ("c", ⟨[1, 2], "v"⟩) (by decide) (by decide) 1 (by decide)⟩

end GCLI
